import Mathlib

/-!
Verification of the cache-generation and parsing pipeline of the Mesa Git
History Viewer (`mesa_viewer.py`) against its specification.

The Python source is shallowly embedded: strings are `String`/`List Char`,
Python exceptions become `Option`, and the regular expressions used by the
source are embedded as executable matchers whose backtracking behaviour
follows Python's `re` engine.  Unicode-only behaviour of Python (`str.lower`,
`int` on non-ASCII digits, exotic whitespace) is modelled on the ASCII
fragment, which is the alphabet all cache files and patterns of this program
use.
-/

/-! ## Character classes (Python `\s`, `\d`, `[a-f0-9]`, `[\d.]`) -/

/-- Python regex `\s` and `str.strip()` whitespace, ASCII fragment. -/
def isPyWs (c : Char) : Bool :=
  c == ' ' || c == '\t' || c == '\n' || c == '\r' || c == '\x0b' || c == '\x0c'

/-- Python regex `\d`, ASCII fragment. -/
def isDigitC (c : Char) : Bool := '0' ≤ c && c ≤ '9'

/-- Python regex `[a-f0-9]` (lowercase hex) of the history-line pattern. -/
def isHexLower (c : Char) : Bool := isDigitC c || ('a' ≤ c && c ≤ 'f')

/-- Python regex `[\d\.]` of the RELEASE-header pattern. -/
def isVerC (c : Char) : Bool := isDigitC c || c == '.'

/-! ## Python string primitives used by the source -/

/-- Front test used by several embedded operations: does `l` start with `p`. -/
def startsWithL : List Char → List Char → Bool
  | [], _ => true
  | _ :: _, [] => false
  | p :: ps, c :: cs => p == c && startsWithL ps cs

/-- Python `str.strip()` (no argument): drop leading and trailing whitespace. -/
def pyStripChars (l : List Char) : List Char :=
  ((l.dropWhile isPyWs).reverse.dropWhile isPyWs).reverse

/-- Python `str.split(sep)` for a one-character separator: `"".split "."`
gives one empty segment, exactly as in Python. -/
def splitOnChar (sep : Char) : List Char → List (List Char)
  | [] => [[]]
  | c :: rest =>
    match splitOnChar sep rest with
    | [] => if c == sep then [[], []] else [[c]]
    | h :: t => if c == sep then [] :: h :: t else (c :: h) :: t

/-- Python `filename.replace(".rst", "")`: delete every occurrence of
`".rst"`, scanning left to right without overlap (the first equation takes
precedence, so the leftmost occurrence is deleted first, exactly as
`str.replace` does). -/
def pyRemoveRst : List Char → List Char
  | '.' :: 'r' :: 's' :: 't' :: rest => pyRemoveRst rest
  | c :: rest => c :: pyRemoveRst rest
  | [] => []

/-- Digit run with Python `int` underscore grammar: nonempty, all characters
digits or underscores, no leading/trailing underscore, no two adjacent
underscores.  Returns the base-10 value. -/
def pyDigitsVal : List Char → Option Nat
  | [] => none
  | l =>
    if l.head? ≠ some '_' ∧ l.getLast? ≠ some '_' ∧
        (l.all fun c => isDigitC c || c == '_') ∧ noDoubleUnderscore l then
      some ((l.filter isDigitC).foldl (fun acc c => 10 * acc + (c.toNat - '0'.toNat)) 0)
    else none
where
  noDoubleUnderscore : List Char → Bool
    | [] => true
    | [_] => true
    | a :: b :: rest => !(a == '_' && b == '_') && noDoubleUnderscore (b :: rest)

/-- Python `int(s)` on the ASCII fragment: strip whitespace, optional single
sign, then a digit run possibly with single grouping underscores between
digits.  `none` models `ValueError`. -/
def pyInt? (s : String) : Option Int :=
  match pyStripChars s.data with
  | '+' :: r => (pyDigitsVal r).map fun n => (n : Int)
  | '-' :: r => (pyDigitsVal r).map fun n => -(n : Int)
  | r => (pyDigitsVal r).map fun n => (n : Int)

/-! ## `get_version_key` (mesa_viewer.py lines 286-295)

```
parts = filename.replace(".rst", "").split(".")
return [int(p) for p in parts]        -- except ValueError: return [0, 0, 0]
```
Note `str.replace` deletes every occurrence of `".rst"`, not only a trailing
suffix. -/

/-- The segment list the source computes before integer conversion. -/
def gvkParts (s : String) : List (List Char) :=
  splitOnChar '.' (pyRemoveRst s.data)

/-- The list comprehension `[int(p) for p in parts]` with `ValueError`
propagation: evaluates left to right, first failure aborts the whole list. -/
def tryParseAll : List (List Char) → Option (List Int)
  | [] => some []
  | p :: ps =>
    match pyInt? (String.mk p), tryParseAll ps with
    | some n, some ns => some (n :: ns)
    | _, _ => none

/-- Embedding of `get_version_key`. -/
def get_version_key (s : String) : List Int :=
  match tryParseAll (gvkParts s) with
  | some ns => ns
  | none => [0, 0, 0]

/-- Spec-worded variant for claim C3: strip only a trailing `".rst"` suffix
(modelled from the spec words "after stripping the trailing .rst suffix",
to be compared with the source's replace-all behaviour). -/
def specStripTrailingRst (s : String) : List Char :=
  if startsWithL ".rst".data.reverse s.data.reverse then
    s.data.take (s.data.length - 4)
  else s.data

lemma tryParseAll_eq_map (l : List (List Char))
    (h : ∀ p ∈ l, (pyInt? (String.mk p)).isSome) :
    tryParseAll l = some (l.map fun p => (pyInt? (String.mk p)).getD 0) := by
  induction l with
  | nil => rfl
  | cons p ps ih =>
    have hp := h p (List.mem_cons_self p ps)
    have hps := ih fun q hq => h q (List.mem_cons_of_mem p hq)
    rcases Option.isSome_iff_exists.mp hp with ⟨n, hn⟩
    simp [tryParseAll, hn, hps]

lemma tryParseAll_eq_none (l : List (List Char))
    (h : ∃ p ∈ l, pyInt? (String.mk p) = none) :
    tryParseAll l = none := by
  induction l with
  | nil => simp at h
  | cons p ps ih =>
    rcases h with ⟨q, hq, hnone⟩
    rcases List.mem_cons.mp hq with rfl | hq'
    · simp [tryParseAll, hnone]
    · have := ih ⟨q, hq', hnone⟩
      cases hfst : pyInt? (String.mk p) <;> simp [tryParseAll, this, hfst]

/-- Claim C3 (amended): `get_version_key` never raises; after deleting every
occurrence of `".rst"` (not only a trailing suffix) and splitting on `'.'`,
if every segment parses as a Python integer the result is that integer
sequence (length = segment count), and if any segment fails the result is
the sentinel `[0, 0, 0]`. -/
theorem C3_version_key_amended (s : String) :
    ((∀ p ∈ gvkParts s, (pyInt? (String.mk p)).isSome) →
      get_version_key s = (gvkParts s).map (fun p => (pyInt? (String.mk p)).getD 0) ∧
      (get_version_key s).length = (gvkParts s).length) ∧
    ((∃ p ∈ gvkParts s, pyInt? (String.mk p) = none) →
      get_version_key s = [0, 0, 0]) := by
  constructor
  · intro h
    have := tryParseAll_eq_map (gvkParts s) h
    constructor
    · simp [get_version_key, this]
    · simp [get_version_key, this]
  · intro h
    have := tryParseAll_eq_none (gvkParts s) h
    simp [get_version_key, this]

/-- Witness for C3: both branches of the amended claim at concrete inputs. -/
theorem C3_version_key_witness :
    get_version_key "22.1.0.rst" = [22, 1, 0] ∧ get_version_key "hello" = [0, 0, 0] := by
  constructor
  · have h := (C3_version_key_amended "22.1.0.rst").1 (by decide)
    rw [h.1]; decide
  · exact (C3_version_key_amended "hello").2 ⟨"hello".data, by decide, by decide⟩

/-- Counterexample for C3 as stated: on `"1.rst.2"` the claim's reading
(strip only a trailing `".rst"`, then split) leaves the unparseable segment
`"rst"`, so it demands the sentinel `[0, 0, 0]`; the code deletes the inner
`".rst"` and returns `[1, 2]`. -/
theorem C3_version_key_counterexample :
    (∃ p ∈ splitOnChar '.' (specStripTrailingRst "1.rst.2"),
        pyInt? (String.mk p) = none) ∧
    get_version_key "1.rst.2" = [1, 2] ∧
    get_version_key "1.rst.2" ≠ [0, 0, 0] := by
  refine ⟨⟨"rst".data, by decide, by decide⟩, by decide, by decide⟩

/-! ## History-cache parsing: `load_data` (mesa_viewer.py lines 823-856)

For each line of the cache file the source strips whitespace, skips the line
if it is then empty, tries the anchored pattern
`^(\d{4}-\d{2}-\d{2}) \| (.*) \(([a-f0-9]+)\)$`, and otherwise falls back on
`line.split(" | ", 1)`, appending `(date, hash, message)` records. -/

/-- Shape test for the date group `\d{4}-\d{2}-\d{2}` at the start of the
pattern (fixed width, so no backtracking is possible there). -/
def dateShaped : List Char → Bool
  | [y1, y2, y3, y4, s1, m1, m2, s2, d1, d2] =>
    isDigitC y1 && isDigitC y2 && isDigitC y3 && isDigitC y4 && s1 == '-' &&
    isDigitC m1 && isDigitC m2 && s2 == '-' && isDigitC d1 && isDigitC d2
  | _ => false

/-- Full match of `^(\d{4}-\d{2}-\d{2}) \| (.*) \(([a-f0-9]+)\)$` against a
line (no flags, so `^`/`$` anchor at the ends and `.` excludes `'\n'`).
Returns the three groups `(date, message, hash)`.

The greedy `(.*)` makes the engine pick the longest message, hence the
shortest trailing ` \(([a-f0-9]+)\)`.  Because `'('` is not a hex character,
the only candidate hash is the maximal run of hex characters immediately
before the final `')'`: any shorter suffix of that run would need `'('` one
position earlier, inside the run.  The match is therefore deterministic. -/
def matchPrimary (line : List Char) : Option (List Char × List Char × List Char) :=
  if dateShaped (line.take 10) && startsWithL " | ".data (line.drop 10) then
    match (line.drop 13).reverse with
    | ')' :: rr =>
      match rr.dropWhile isHexLower with
      | '(' :: ' ' :: mrev =>
        if rr.takeWhile isHexLower ≠ [] && mrev.all (fun c => !(c == '\n')) then
          some (line.take 10, mrev.reverse, (rr.takeWhile isHexLower).reverse)
        else none
      | _ => none
    | _ => none
  else none

/-- Python `line.split(" | ", 1)`: split at the first occurrence of the
separator only; `none` models the one-element result (no separator). -/
def splitFirstSep : List Char → Option (List Char × List Char)
  | [] => none
  | c :: rest =>
    if startsWithL " | ".data (c :: rest) then some ([], (c :: rest).drop 3)
    else (splitFirstSep rest).map fun p => (c :: p.1, p.2)

/-- A parsed commit record `(date, hash, message)`. -/
abbrev CommitRecord := String × String × String

/-- Record extraction for one already-stripped line: primary pattern first
(record is `(group1, group3, group2)`), then the two-field fallback with the
`"?"` hash placeholder. -/
def parseHistoryLine (line : List Char) : Option CommitRecord :=
  match matchPrimary line with
  | some (d, m, h) => some (String.mk d, String.mk h, String.mk m)
  | none =>
    match splitFirstSep line with
    | some (a, b) => some (String.mk a, "?", String.mk b)
    | none => none

/-- Per-line processing of the loop body: strip, skip blank, parse. -/
def processLine (raw : List Char) : Option CommitRecord :=
  if pyStripChars raw = [] then none else parseHistoryLine (pyStripChars raw)

/-- The loop of `load_data`, appending to `self.full_history_data`. -/
def loadDataAux : List (List Char) → List CommitRecord → List CommitRecord
  | [], acc => acc
  | l :: ls, acc =>
    match processLine l with
    | some r => loadDataAux ls (acc ++ [r])
    | none => loadDataAux ls acc

/-- Embedding of `load_data` on the text of the history cache file.  Python's
text-mode iteration yields lines with their terminators (universal-newline
translated), which `strip()` removes; splitting on `'\n'` and stripping each
piece produces the same stripped lines. -/
def load_data (text : String) : List CommitRecord :=
  loadDataAux (splitOnChar '\n' text.data) []

lemma loadDataAux_eq_filterMap (ls : List (List Char)) (acc : List CommitRecord) :
    loadDataAux ls acc = acc ++ ls.filterMap processLine := by
  induction ls generalizing acc with
  | nil => simp [loadDataAux]
  | cons l ls ih =>
    cases h : processLine l <;> simp [loadDataAux, h, ih]

/-- Claim C4: parsing a history cache never raises; every line that neither
matches the primary pattern nor splits in two at the first `" | "` is
silently skipped; the output is exactly the records of the remaining lines
in input-line order; and the documented concrete example parses as stated. -/
theorem C4_load_data_malformed_tolerance :
    load_data "2023-01-01 | Valid commit (abc123de)\nbroken\n2023-01-02 | Another (def456ab)"
      = [("2023-01-01", "abc123de", "Valid commit"), ("2023-01-02", "def456ab", "Another")] ∧
    (∀ text : String,
      load_data text = (splitOnChar '\n' text.data).filterMap processLine) ∧
    (∀ l : List Char, matchPrimary (pyStripChars l) = none →
      splitFirstSep (pyStripChars l) = none → processLine l = none) := by
  refine ⟨by decide, fun text => ?_, fun l h1 h2 => ?_⟩
  · simpa using loadDataAux_eq_filterMap (splitOnChar '\n' text.data) []
  · simp only [processLine, parseHistoryLine, h1, h2]
    split <;> rfl

/-- Witness for C4 at a concrete unparseable line and a concrete text. -/
theorem C4_load_data_witness :
    processLine "broken".data = none ∧ load_data "a\nb" = [] := by
  refine ⟨C4_load_data_malformed_tolerance.2.2 "broken".data (by decide) (by decide), ?_⟩
  rw [C4_load_data_malformed_tolerance.2.1 "a\nb"]
  decide

/-! ## Structural facts about stripping and the primary pattern -/

lemma all_takeWhile (p : Char → Bool) (l : List Char) : (l.takeWhile p).all p := by
  induction l with
  | nil => rfl
  | cons c t ih =>
    by_cases h : p c <;> simp [List.takeWhile_cons, h, ih]

lemma head_dropWhile_not (p : Char → Bool) (l : List Char) :
    ∀ c, (l.dropWhile p).head? = some c → p c = false := by
  induction l with
  | nil => intro c h; simp at h
  | cons a t ih =>
    intro c h
    by_cases ha : p a
    · exact ih c (by simpa [List.dropWhile_cons, ha] using h)
    · simp [List.dropWhile_cons, ha] at h
      simpa [← h] using ha

lemma dropWhile_eq_self_of_head (p : Char → Bool) (l : List Char)
    (h : ∀ c, l.head? = some c → p c = false) : l.dropWhile p = l := by
  cases l with
  | nil => rfl
  | cons a t => simp [List.dropWhile_cons, h a rfl]

lemma dropWhile_eq_nil_of_all (p : Char → Bool) (l : List Char) (h : l.all p) :
    l.dropWhile p = [] := by
  induction l with
  | nil => rfl
  | cons a t ih =>
    simp only [List.all_cons, Bool.and_eq_true] at h
    simp [List.dropWhile_cons, h.1, ih h.2]

lemma getLast?_dropWhile (p : Char → Bool) (l : List Char)
    (h : l.dropWhile p ≠ []) : (l.dropWhile p).getLast? = l.getLast? := by
  induction l with
  | nil => simp at h
  | cons a t ih =>
    by_cases ha : p a
    · rw [List.dropWhile_cons_of_pos ha] at h ⊢
      have ht : t ≠ [] := by
        intro hc; rw [hc] at h; exact h rfl
      rw [ih h]
      cases t with
      | nil => exact absurd rfl ht
      | cons b u => simp [List.getLast?_cons_cons]
    · rw [List.dropWhile_cons_of_neg ha]

lemma pyStripChars_idem (l : List Char) :
    pyStripChars (pyStripChars l) = pyStripChars l := by
  have hA : ∀ c, (l.dropWhile isPyWs).head? = some c → isPyWs c = false :=
    head_dropWhile_not isPyWs l
  unfold pyStripChars
  cases hB : (l.dropWhile isPyWs).reverse.dropWhile isPyWs with
  | nil => simp
  | cons b bs =>
    rw [← hB]
    have hBne : (l.dropWhile isPyWs).reverse.dropWhile isPyWs ≠ [] := by
      rw [hB]; exact List.cons_ne_nil b bs
    have hrevhead : ∀ c,
        ((l.dropWhile isPyWs).reverse.dropWhile isPyWs).reverse.head? = some c →
        isPyWs c = false := by
      intro c hc
      rw [List.head?_reverse, getLast?_dropWhile isPyWs _ hBne,
        List.getLast?_reverse] at hc
      exact hA c hc
    rw [dropWhile_eq_self_of_head isPyWs _ hrevhead, List.reverse_reverse,
      dropWhile_eq_self_of_head isPyWs _
        (fun c hc => head_dropWhile_not isPyWs (l.dropWhile isPyWs).reverse c hc)]

lemma matchPrimary_groups {line d m h : List Char}
    (hm : matchPrimary line = some (d, m, h)) :
    dateShaped d ∧ h ≠ [] ∧ h.all isHexLower := by
  unfold matchPrimary at hm
  split at hm
  case isFalse => exact absurd hm (by simp)
  case isTrue hguard =>
    split at hm
    case h_2 => exact absurd hm (by simp)
    case h_1 rr heq =>
      split at hm
      case h_2 => exact absurd hm (by simp)
      case h_1 mrev hdrop =>
        split at hm
        case isFalse => exact absurd hm (by simp)
        case isTrue hcond =>
          injection hm with hm1
          injection hm1 with hd hm2
          injection hm2 with hmm hh
          simp only [Bool.and_eq_true, decide_eq_true_eq] at hguard hcond
          refine ⟨hd ▸ hguard.1, ?_, ?_⟩
          · rw [← hh]
            simp only [ne_eq, decide_not, Bool.not_eq_eq_eq_not, Bool.not_true,
              decide_eq_false_iff_not] at hcond
            simp [hcond.1]
          · rw [← hh, List.all_reverse]
            exact all_takeWhile isHexLower rr

/-- Claim C8: every record `load_data` emits has a nonempty hash that is
either a lowercase-hex string (and then the date group is date-shaped) or
exactly the placeholder `"?"`. -/
theorem C8_hash_invariant (text : String) (r : CommitRecord)
    (hmem : r ∈ load_data text) :
    r.2.1 ≠ "" ∧
    ((r.2.1.data ≠ [] ∧ r.2.1.data.all isHexLower ∧ dateShaped r.1.data) ∨ r.2.1 = "?") := by
  rw [load_data, loadDataAux_eq_filterMap, List.nil_append] at hmem
  rcases List.mem_filterMap.mp hmem with ⟨l, _, hpl⟩
  unfold processLine at hpl
  split at hpl
  · exact absurd hpl (by simp)
  · unfold parseHistoryLine at hpl
    cases hmp : matchPrimary (pyStripChars l) with
    | some g =>
      obtain ⟨d, m, h⟩ := g
      rw [hmp] at hpl
      injection hpl with hr
      obtain ⟨hds, hne, hhex⟩ := matchPrimary_groups hmp
      refine ⟨?_, Or.inl ?_⟩
      · rw [← hr]
        intro hcontra
        exact hne (by simpa [String.ext_iff] using hcontra)
      · rw [← hr]
        exact ⟨hne, hhex, hds⟩
    | none =>
      rw [hmp] at hpl
      cases hsp : splitFirstSep (pyStripChars l) with
      | none => rw [hsp] at hpl; exact absurd hpl (by simp)
      | some ab =>
        rw [hsp] at hpl
        injection hpl with hr
        refine ⟨?_, Or.inr ?_⟩
        · rw [← hr]
          show ("?" : String) ≠ ""
          decide
        · rw [← hr]

/-- Witness for C8 at a concrete cache text and record. -/
theorem C8_hash_invariant_witness :
    ("2023-01-01", "abc12", "x") ∈ load_data "2023-01-01 | x (abc12)" ∧
    ("2023-01-01", "abc12", "x").2.1 ≠ "" := by
  have hm : ("2023-01-01", "abc12", "x") ∈ load_data "2023-01-01 | x (abc12)" := by decide
  exact ⟨hm, (C8_hash_invariant "2023-01-01 | x (abc12)" ("2023-01-01", "abc12", "x") hm).1⟩

/-- Claim C9: each line is stripped of surrounding whitespace before either
pattern is tried, so a padded full record still parses with its hash, and a
whitespace-only line is skipped like a blank one. -/
theorem C9_whitespace_stripping :
    load_data "  2023-01-01 | msg (abc123)  " = [("2023-01-01", "abc123", "msg")] ∧
    (∀ l : List Char, processLine l = processLine (pyStripChars l)) ∧
    (∀ l : List Char, l.all isPyWs → processLine l = none) := by
  refine ⟨by decide, fun l => ?_, fun l hws => ?_⟩
  · simp only [processLine, pyStripChars_idem]
  · have hstrip : pyStripChars l = [] := by
      unfold pyStripChars
      rw [dropWhile_eq_nil_of_all isPyWs l hws]
      rfl
    simp [processLine, hstrip]

/-- Witness for C9 at a whitespace-only line. -/
theorem C9_whitespace_witness : processLine "   ".data = none :=
  C9_whitespace_stripping.2.2 "   ".data (by decide)

/-! ## Calendar model: Python `datetime` on the fields this program uses

A `datetime` is a 7-tuple compared lexicographically; the constructor
validates each field and raises `ValueError` otherwise, modelled by
`Option`. -/

structure PyDateTime where
  year : Int
  month : Int
  day : Int
  hour : Int
  minute : Int
  second : Int
  microsecond : Int
deriving DecidableEq, Repr

def isLeapYear (y : Int) : Bool := y % 4 == 0 && (y % 100 != 0 || y % 400 == 0)

def daysInMonth (y m : Int) : Int :=
  if m == 2 then (if isLeapYear y then 29 else 28)
  else if m == 4 || m == 6 || m == 9 || m == 11 then 30
  else 31

/-- Python `datetime(year, month, day)` (time fields zero): `none` models the
`ValueError` the constructor raises on out-of-range fields. -/
def mkPyDateTime (y m d : Int) : Option PyDateTime :=
  if 1 ≤ y ∧ y ≤ 9999 ∧ 1 ≤ m ∧ m ≤ 12 ∧ 1 ≤ d ∧ d ≤ daysInMonth y m then
    some ⟨y, m, d, 0, 0, 0, 0⟩
  else none

/-- Python `datetime` order `a <= b`: lexicographic on the field tuple. -/
def pyDatetimeLe (a b : PyDateTime) : Bool :=
  a.year < b.year || (a.year == b.year &&
    (a.month < b.month || (a.month == b.month &&
      (a.day < b.day || (a.day == b.day &&
        (a.hour < b.hour || (a.hour == b.hour &&
          (a.minute < b.minute || (a.minute == b.minute &&
            (a.second < b.second || (a.second == b.second &&
              a.microsecond ≤ b.microsecond)))))))))))

/-- Well-formedness of a `datetime` value (what the constructor guarantees). -/
def validPyDateTime (a : PyDateTime) : Bool :=
  1 ≤ a.year && a.year ≤ 9999 && 1 ≤ a.month && a.month ≤ 12 &&
  1 ≤ a.day && a.day ≤ daysInMonth a.year a.month &&
  0 ≤ a.hour && a.hour ≤ 23 && 0 ≤ a.minute && a.minute ≤ 59 &&
  0 ≤ a.second && a.second ≤ 59 && 0 ≤ a.microsecond && a.microsecond ≤ 999999

/-! ## `compute_cutoff_date` (mesa_viewer.py lines 894-911)

Python `//` and `%` on a positive divisor are floor division and
nonnegative remainder, which on `Int` are `ediv` and `emod`. -/

def compute_cutoff_date (months : Int) (now : PyDateTime) : Option PyDateTime :=
  let years_to_subtract := months.ediv 12
  let months_to_subtract_from_current := months.emod 12
  let target_year := now.year - years_to_subtract
  let target_month := now.month - months_to_subtract_from_current
  if target_month ≤ 0 then
    mkPyDateTime (target_year - 1) (target_month + 12) (min now.day 28)
  else
    mkPyDateTime target_year target_month (min now.day 28)

lemma daysInMonth_ge (y m : Int) : 28 ≤ daysInMonth y m := by
  unfold daysInMonth
  split
  · split <;> omega
  · split <;> omega

lemma pyDatetimeLe_iff (a b : PyDateTime) : pyDatetimeLe a b = true ↔
    (a.year < b.year ∨ (a.year = b.year ∧
      (a.month < b.month ∨ (a.month = b.month ∧
        (a.day < b.day ∨ (a.day = b.day ∧
          (a.hour < b.hour ∨ (a.hour = b.hour ∧
            (a.minute < b.minute ∨ (a.minute = b.minute ∧
              (a.second < b.second ∨ (a.second = b.second ∧
                a.microsecond ≤ b.microsecond)))))))))))) := by
  simp [pyDatetimeLe]

/-- Claim C5: for `months ≥ 0` and a valid reference `now` whose year stays
in calendar range after the subtraction, `compute_cutoff_date` succeeds
(never raises), the result is `≤ now`, its year is `≤ now.year`, its day is
`≤ 28`, its time of day is zeroed, and its year/month follow the documented
`//`/`%` decomposition with the `target_month ≤ 0` wrap-around. -/
theorem C5_compute_cutoff_properties (months : Int) (now : PyDateTime)
    (hm : 0 ≤ months) (hv : validPyDateTime now = true)
    (hrange : months.ediv 12 + 2 ≤ now.year) :
    ∃ c, compute_cutoff_date months now = some c ∧
      pyDatetimeLe c now = true ∧
      c.year ≤ now.year ∧ c.day ≤ 28 ∧
      c.hour = 0 ∧ c.minute = 0 ∧ c.second = 0 ∧ c.microsecond = 0 ∧
      c.year = (if now.month - months.emod 12 ≤ 0
        then now.year - months.ediv 12 - 1 else now.year - months.ediv 12) ∧
      c.month = (if now.month - months.emod 12 ≤ 0
        then now.month - months.emod 12 + 12 else now.month - months.emod 12) := by
  have hr0 : 0 ≤ months.emod 12 := Int.emod_nonneg months (by norm_num)
  have hr12 : months.emod 12 < 12 := Int.emod_lt_of_pos months (by norm_num)
  have hd0 : 0 ≤ months.ediv 12 := Int.ediv_nonneg hm (by norm_num)
  simp only [validPyDateTime, Bool.and_eq_true, decide_eq_true_eq] at hv
  obtain ⟨⟨⟨⟨⟨⟨⟨⟨⟨⟨⟨⟨⟨hy1, hy2⟩, hmo1⟩, hmo2⟩, hd1⟩, hd2⟩, hh1⟩, hh2⟩, hmi1⟩,
    hmi2⟩, hs1⟩, hs2⟩, hus1⟩, hus2⟩ := hv
  by_cases htm : now.month - months.emod 12 ≤ 0
  · have h28 := daysInMonth_ge (now.year - months.ediv 12 - 1)
      (now.month - months.emod 12 + 12)
    refine ⟨⟨now.year - months.ediv 12 - 1, now.month - months.emod 12 + 12,
      min now.day 28, 0, 0, 0, 0⟩, ?_, ?_, ?_, ?_, rfl, rfl, rfl, rfl, ?_, ?_⟩
    · simp only [compute_cutoff_date]
      rw [if_pos htm, mkPyDateTime, if_pos (by omega)]
    · rw [pyDatetimeLe_iff]
      simp only
      omega
    · simp only
      omega
    · simp only
      omega
    · rw [if_pos htm]
    · rw [if_pos htm]
  · have h28 := daysInMonth_ge (now.year - months.ediv 12)
      (now.month - months.emod 12)
    refine ⟨⟨now.year - months.ediv 12, now.month - months.emod 12,
      min now.day 28, 0, 0, 0, 0⟩, ?_, ?_, ?_, ?_, rfl, rfl, rfl, rfl, ?_, ?_⟩
    · simp only [compute_cutoff_date]
      rw [if_neg htm, mkPyDateTime, if_pos (by omega)]
    · rw [pyDatetimeLe_iff]
      simp only
      omega
    · simp only
      omega
    · simp only
      omega
    · rw [if_neg htm]
    · rw [if_neg htm]

/-- Witness for C5 at `months = 12`, `now = 2024-03-31 12:30:05`. -/
theorem C5_compute_cutoff_witness :
    ∃ c, compute_cutoff_date 12 ⟨2024, 3, 31, 12, 30, 5, 0⟩ = some c ∧
      pyDatetimeLe c ⟨2024, 3, 31, 12, 30, 5, 0⟩ = true ∧
      c.year ≤ 2024 ∧ c.day ≤ 28 := by
  obtain ⟨c, h1, h2, h3, h4, _⟩ := C5_compute_cutoff_properties 12
    ⟨2024, 3, 31, 12, 30, 5, 0⟩ (by decide) (by decide) (by decide)
  exact ⟨c, h1, h2, h3, h4⟩

/-! ## `generate_agg_list` (mesa_viewer.py lines 959-989)

The months spinbox text goes through `int(...)` (`ValueError` shows an input
error), the cutoff comes from `compute_cutoff_date`, and each record whose
date parses with `strptime(date, "%Y-%m-%d")` and is `>= cutoff` contributes
one `"<date> | <message> (<hash>)"` line; `ValueError` from `strptime` skips
the record. -/

/-- Numeric value of an ASCII digit. -/
def dval (c : Char) : Int := (c.toNat : Int) - 48

/-- CPython `_strptime` directive `%m`, i.e. `(?P<m>1[0-2]|0[1-9]|[1-9])`,
restricted to its two-digit alternatives.  A valid two-digit month never
overlaps the one-digit alternative because the following character of the
format is `'-'`, which is not a digit, so the alternation is deterministic. -/
def parseMonth2 (a b : Char) : Option Int :=
  if a == '1' && (b == '0' || b == '1' || b == '2') then some (10 + dval b)
  else if a == '0' && isDigitC b && !(b == '0') then some (dval b)
  else none

/-- CPython `_strptime` directive `%d`, `(?P<d>3[01]|[12]\d|0[1-9]|[1-9])`,
followed by the end-of-data check (`strptime` raises on unconverted data).
The alternatives are deterministic for the same reason as `parseMonth2`. -/
def parseDayEnd : List Char → Option Int
  | [a] => if isDigitC a && !(a == '0') then some (dval a) else none
  | [a, b] =>
    if a == '3' && (b == '0' || b == '1') then some (30 + dval b)
    else if (a == '1' || a == '2') && isDigitC b then some (10 * dval a + dval b)
    else if a == '0' && isDigitC b && !(b == '0') then some (dval b)
    else none
  | _ => none

/-- Month, the literal `'-'`, then day and end of data. -/
def parseMonthDashDay : List Char → Option (Int × Int)
  | a :: b :: rest =>
    match parseMonth2 a b with
    | some m =>
      match rest with
      | '-' :: r2 => (parseDayEnd r2).map fun d => (m, d)
      | _ => none
    | none =>
      if isDigitC a && !(a == '0') && b == '-' then
        (parseDayEnd rest).map fun d => (dval a, d)
      else none
  | _ => none

/-- Python `datetime.strptime(s, "%Y-%m-%d")`: `%Y` is exactly four digits,
then the validated month/day groups with no surrounding slack, then the
`datetime` constructor's own range check.  `none` models `ValueError`. -/
def pyStrptimeYmd (s : String) : Option PyDateTime :=
  match s.data with
  | y1 :: y2 :: y3 :: y4 :: '-' :: rest =>
    if isDigitC y1 && isDigitC y2 && isDigitC y3 && isDigitC y4 then
      match parseMonthDashDay rest with
      | some (m, d) =>
        mkPyDateTime (1000 * dval y1 + 100 * dval y2 + 10 * dval y3 + dval y4) m d
      | none => none
    else none
  | _ => none

/-- Embedding of `generate_agg_list`.  The source reads the months text from
the spinbox and takes `now` implicitly from `datetime.now()`; both are
parameters here.  `none` models the two error dialogs (unparseable months,
or `compute_cutoff_date` raising inside the surrounding handler). -/
def generate_agg_list (monthsRaw : String) (now : PyDateTime)
    (records : List CommitRecord) : Option (List String) :=
  match pyInt? monthsRaw with
  | none => none
  | some months =>
    match compute_cutoff_date months now with
    | none => none
    | some cutoff =>
      some (("Mesa History - Last " ++ toString months ++ " Months") ::
        String.mk (List.replicate 60 '-') ::
        records.filterMap fun r =>
          match pyStrptimeYmd r.1 with
          | none => none
          | some dt =>
            if pyDatetimeLe cutoff dt then
              some (r.1 ++ " | " ++ r.2.2 ++ " (" ++ r.2.1 ++ ")")
            else none)

/-- Counterexample for C1 as stated: with `months = 12` and
`now = 2024-03-31` the code's cutoff is `2023-03-28`, not `2024-02-28`, and
the record dated `2024-01-01` is included in the export, not excluded. -/
theorem C1_aggregate_counterexample :
    compute_cutoff_date 12 ⟨2024, 3, 31, 0, 0, 0, 0⟩ = some ⟨2023, 3, 28, 0, 0, 0, 0⟩ ∧
    compute_cutoff_date 12 ⟨2024, 3, 31, 0, 0, 0, 0⟩ ≠ some ⟨2024, 2, 28, 0, 0, 0, 0⟩ ∧
    ((generate_agg_list "12" ⟨2024, 3, 31, 0, 0, 0, 0⟩
        (load_data "2024-01-01 | Old (abc123)\n2024-03-01 | New (def456)")).getD []).contains
      "2024-01-01 | Old (abc123)" = true := by
  decide

/-- Claim C1 (amended, `months = 12` corrected to `months = 1`, which is the
scenario the stated cutoff and record outcomes describe and the one the
repository's own test asserts): with `months = 1` and `now = 2024-03-31` the
cutoff is `2024-02-28`, and the export over the parsed records excludes the
record dated `2024-01-01` and includes the record dated `2024-03-01`. -/
theorem C1_aggregate_amended :
    compute_cutoff_date 1 ⟨2024, 3, 31, 0, 0, 0, 0⟩ = some ⟨2024, 2, 28, 0, 0, 0, 0⟩ ∧
    generate_agg_list "1" ⟨2024, 3, 31, 0, 0, 0, 0⟩
        (load_data "2024-01-01 | Old (abc123)\n2024-03-01 | New (def456)")
      = some ["Mesa History - Last 1 Months", String.mk (List.replicate 60 '-'),
          "2024-03-01 | New (def456)"] := by
  decide

/-! ## `filter_history` (mesa_viewer.py lines 926-942)

The query is lowercased; an empty query restores the full data; otherwise a
record is kept when the lowercased query occurs in the lowercased hash
(`item[1]`) or message (`item[2]`) — the date (`item[0]`) is never tested. -/

/-- Python `str.lower` on the ASCII fragment. -/
def pyLowerChar (c : Char) : Char :=
  if 'A' ≤ c ∧ c ≤ 'Z' then Char.ofNat (c.toNat + 32) else c

def pyLower (s : String) : String := String.mk (s.data.map pyLowerChar)

/-- Python substring test `needle in haystack`. -/
def containsSub (h n : List Char) : Bool :=
  if startsWithL n h then true else
    match h with
    | [] => false
    | _ :: t => containsSub t n

/-- Embedding of `filter_history` on the backing data and the search text. -/
def filter_history (data : List CommitRecord) (rawQuery : String) :
    List CommitRecord :=
  let query := pyLower rawQuery
  if query = "" then data
  else data.filter fun item =>
    containsSub (pyLower item.2.1).data query.data ||
    containsSub (pyLower item.2.2).data query.data

/-- Claim C7: `filter_history` keeps exactly the records whose hash or
message contains the query case-insensitively (the date field is never
matched), preserving input order, and the empty query yields the full
sequence. -/
theorem C7_filter_history_characterization (data : List CommitRecord) (q : String) :
    filter_history data "" = data ∧
    filter_history data q = data.filter (fun item =>
      pyLower q == "" ||
      containsSub (pyLower item.2.1).data (pyLower q).data ||
      containsSub (pyLower item.2.2).data (pyLower q).data) ∧
    (filter_history data q).Sublist data := by
  have hempty : filter_history data "" = data := rfl
  have hmain : filter_history data q = data.filter (fun item =>
      pyLower q == "" ||
      containsSub (pyLower item.2.1).data (pyLower q).data ||
      containsSub (pyLower item.2.2).data (pyLower q).data) := by
    unfold filter_history
    by_cases hq : pyLower q = ""
    · simp [hq, List.filter_true]
    · rw [if_neg hq]
      have : (pyLower q == "") = false := by
        simpa using hq
      simp only [this, Bool.false_or]
  refine ⟨hempty, hmain, ?_⟩
  rw [hmain]
  exact List.filter_sublist data

/-! ## The summaries delimiter pattern (mesa_viewer.py lines 300-302, 877-888)

`RELEASE_NOTES_PATTERN` is
`^\s*=+\s*\n\s*RELEASE:\s*([\d\.]+)\s*\n\s*=+\s*\n` with `IGNORECASE` and
`MULTILINE`.  It is a plain sequence of literals and greedy single-character
classes, embedded below as an item list run by a backtracking matcher that
mirrors the `re` engine: each greedy quantifier tries the longest
consumable run first and retreats one character at a time. -/

inductive RItem
  | wsStar
  | eqPlus
  | litNL
  | lit (c : Char)
  | verGroup
deriving DecidableEq, Repr

/-- Item list of `RELEASE_NOTES_PATTERN` after the `^` anchor (the anchor is
checked by the scanner, which knows whether it stands at a line start). -/
def releaseItems : List RItem :=
  [.wsStar, .eqPlus, .wsStar, .litNL, .wsStar,
   .lit 'R', .lit 'E', .lit 'L', .lit 'E', .lit 'A', .lit 'S', .lit 'E', .lit ':',
   .wsStar, .verGroup, .wsStar, .litNL, .wsStar, .eqPlus, .wsStar, .litNL]

/-- Case-insensitive character match (`re.IGNORECASE`, ASCII fragment). -/
def ciEq (a b : Char) : Bool := pyLowerChar a == pyLowerChar b

/-- Greedy `*`: try consuming `k` characters, retreat on failure. -/
def tryStar (f : Nat → Option α) : Nat → Option α
  | 0 => f 0
  | k + 1 => (f (k + 1)).orElse fun _ => tryStar f k

/-- Greedy `+`: like `tryStar` but at least one character. -/
def tryPlus (f : Nat → Option α) : Nat → Option α
  | 0 => none
  | k + 1 => (f (k + 1)).orElse fun _ => tryPlus f k

/-- Run the item sequence on the input, returning the unconsumed remainder
and the text of the single capture group (`[]` before `verGroup` binds it).
Quantifier bounds are the maximal consumable runs; a quantifier can never
consume past its run because its class fails on the next character, so
trying `0..run` lengths is exactly the engine's search space. -/
def matchCore : List RItem → List Char → Option (List Char × List Char)
  | [], rem => some (rem, [])
  | .wsStar :: rest, rem =>
    tryStar (fun j => matchCore rest (rem.drop j)) (rem.takeWhile isPyWs).length
  | .eqPlus :: rest, rem =>
    tryPlus (fun j => matchCore rest (rem.drop j)) (rem.takeWhile (· == '=')).length
  | .litNL :: rest, rem =>
    match rem with
    | x :: r => if x == '\n' then matchCore rest r else none
    | [] => none
  | .lit c :: rest, rem =>
    match rem with
    | x :: r => if ciEq x c then matchCore rest r else none
    | _ => none
  | .verGroup :: rest, rem =>
    tryPlus (fun j => (matchCore rest (rem.drop j)).map fun p => (p.1, rem.take j))
      (rem.takeWhile isVerC).length

/-- Leftmost match search from the current scan position.  `atLineStart`
tells whether `^` may fire here (`MULTILINE`: position 0 or just after a
`'\n'`); the scanner threads it while walking.  Returns the skipped text,
the capture, and the remainder after the match. -/
def findFirstDelim : Bool → List Char → Option (List Char × List Char × List Char)
  | atLineStart, s =>
    match (if atLineStart then matchCore releaseItems s else none) with
    | some (rest, g) => some ([], g, rest)
    | none =>
      match s with
      | [] => none
      | c :: s2 => (findFirstDelim (c == '\n') s2).map fun p =>
          (c :: p.1, p.2.1, p.2.2)

/-! Basic facts about the greedy search and the matcher. -/

lemma tryStar_some_exists {f : Nat → Option α} {k : Nat} {v : α}
    (h : tryStar f k = some v) : ∃ j ≤ k, f j = some v := by
  induction k with
  | zero => exact ⟨0, Nat.le_refl 0, h⟩
  | succ k ih =>
    rw [tryStar] at h
    cases htop : f (k + 1) with
    | some w =>
      rw [htop] at h
      exact ⟨k + 1, Nat.le_refl _, htop.trans (by simpa using h)⟩
    | none =>
      rw [htop] at h
      obtain ⟨j, hj, hfj⟩ := ih h
      exact ⟨j, Nat.le_succ_of_le hj, hfj⟩

lemma tryPlus_some_exists {f : Nat → Option α} {k : Nat} {v : α}
    (h : tryPlus f k = some v) : ∃ j, 1 ≤ j ∧ j ≤ k ∧ f j = some v := by
  induction k with
  | zero => exact absurd h (by simp [tryPlus])
  | succ k ih =>
    rw [tryPlus] at h
    cases htop : f (k + 1) with
    | some w =>
      rw [htop] at h
      exact ⟨k + 1, Nat.le_add_left 1 k, Nat.le_refl _, htop.trans (by simpa using h)⟩
    | none =>
      rw [htop] at h
      obtain ⟨j, hj1, hjk, hfj⟩ := ih h
      exact ⟨j, hj1, Nat.le_succ_of_le hjk, hfj⟩

lemma tryStar_of_top {f : Nat → Option α} {k : Nat} {v : α}
    (h : f k = some v) : tryStar f k = some v := by
  cases k with
  | zero => exact h
  | succ k => simp [tryStar, h]

lemma tryPlus_of_top {f : Nat → Option α} {k : Nat} {v : α}
    (hk : 1 ≤ k) (h : f k = some v) : tryPlus f k = some v := by
  cases k with
  | zero => omega
  | succ k => simp [tryPlus, h]

lemma tryStar_none {f : Nat → Option α} {k : Nat}
    (h : ∀ j ≤ k, f j = none) : tryStar f k = none := by
  induction k with
  | zero => exact h 0 (Nat.le_refl 0)
  | succ k ih =>
    rw [tryStar, h (k + 1) (Nat.le_refl _)]
    exact ih fun j hj => h j (Nat.le_succ_of_le hj)

lemma tryPlus_none {f : Nat → Option α} {k : Nat}
    (h : ∀ j, 1 ≤ j → j ≤ k → f j = none) : tryPlus f k = none := by
  induction k with
  | zero => rfl
  | succ k ih =>
    rw [tryPlus, h (k + 1) (Nat.le_add_left 1 k) (Nat.le_refl _)]
    exact ih fun j h1 hj => h j h1 (Nat.le_succ_of_le hj)

lemma tryStar_shrink {f : Nat → Option α} {k m : Nat} (hm : m ≤ k)
    (h : ∀ i, m < i → i ≤ k → f i = none) : tryStar f k = tryStar f m := by
  induction k with
  | zero =>
    cases Nat.le_zero.mp hm
    rfl
  | succ k ih =>
    rcases Nat.lt_or_ge m (k + 1) with hlt | hge
    · rw [tryStar, h (k + 1) hlt (Nat.le_refl _)]
      exact ih (Nat.lt_succ_iff.mp hlt) fun i h1 h2 => h i h1 (Nat.le_succ_of_le h2)
    · have : m = k + 1 := Nat.le_antisymm hm hge
      rw [this]


/-! Small unfolding equations for the literal items (definitional). -/

lemma matchCore_litNL_cons (rest : List RItem) (x : Char) (r : List Char) :
    matchCore (RItem.litNL :: rest) (x :: r) =
      if x == '\n' then matchCore rest r else none := rfl

lemma matchCore_litNL_nil (rest : List RItem) :
    matchCore (RItem.litNL :: rest) [] = none := rfl

lemma matchCore_lit_cons (c : Char) (rest : List RItem) (x : Char) (r : List Char) :
    matchCore (RItem.lit c :: rest) (x :: r) =
      if ciEq x c then matchCore rest r else none := rfl

lemma matchCore_lit_nil (c : Char) (rest : List RItem) :
    matchCore (RItem.lit c :: rest) [] = none := rfl

lemma append_of_drop {rem pre rest : List Char} {j : Nat}
    (h : rem.drop j = pre ++ '\n' :: rest) :
    rem = (rem.take j ++ pre) ++ '\n' :: rest := by
  conv_lhs => rw [← List.take_append_drop j rem]
  rw [h, List.append_assoc]

/-! Every match of the pattern ends with the `'\n'` its final `\s*\n`
consumed; this both bounds the scanner's recursion and justifies resuming
the scan in line-start state after each match. -/

lemma matchCore_append_split (items : List RItem) :
    ∀ (rem rest g : List Char),
      matchCore (items ++ [RItem.wsStar, RItem.litNL]) rem = some (rest, g) →
      ∃ pre, rem = pre ++ '\n' :: rest := by
  induction items with
  | nil =>
    intro rem rest g hm
    have hm' : tryStar (fun j => matchCore [RItem.litNL] (rem.drop j))
        (rem.takeWhile isPyWs).length = some (rest, g) := hm
    obtain ⟨j, hjle, hfj⟩ := tryStar_some_exists hm'
    cases hdrop : rem.drop j with
    | nil => rw [hdrop, matchCore_litNL_nil] at hfj; exact absurd hfj (by simp)
    | cons c r =>
      rw [hdrop, matchCore_litNL_cons] at hfj
      by_cases hc : c == '\n'
      · rw [if_pos hc] at hfj
        simp only [matchCore, Option.some.injEq, Prod.mk.injEq] at hfj
        refine ⟨rem.take j ++ [], append_of_drop ?_⟩
        rw [hdrop, hfj.1, List.nil_append]
        have : c = '\n' := by simpa using hc
        rw [this]
      · rw [if_neg hc] at hfj
        exact absurd hfj (by simp)
  | cons i tail ih =>
    intro rem rest g hm
    cases i with
    | wsStar =>
      simp only [List.cons_append, matchCore] at hm
      obtain ⟨j, hjle, hfj⟩ := tryStar_some_exists hm
      obtain ⟨pre, hpre⟩ := ih (rem.drop j) rest g hfj
      exact ⟨rem.take j ++ pre, append_of_drop hpre⟩
    | eqPlus =>
      simp only [List.cons_append, matchCore] at hm
      obtain ⟨j, hj1, hjk, hfj⟩ := tryPlus_some_exists hm
      obtain ⟨pre, hpre⟩ := ih (rem.drop j) rest g hfj
      exact ⟨rem.take j ++ pre, append_of_drop hpre⟩
    | litNL =>
      rw [List.cons_append] at hm
      cases rem with
      | nil => rw [matchCore_litNL_nil] at hm; exact absurd hm (by simp)
      | cons x r =>
        rw [matchCore_litNL_cons] at hm
        by_cases hx : x == '\n'
        · rw [if_pos hx] at hm
          obtain ⟨pre, hpre⟩ := ih r rest g hm
          exact ⟨x :: pre, by rw [hpre]; rfl⟩
        · rw [if_neg hx] at hm
          exact absurd hm (by simp)
    | lit c =>
      rw [List.cons_append] at hm
      cases rem with
      | nil => rw [matchCore_lit_nil] at hm; exact absurd hm (by simp)
      | cons x r =>
        rw [matchCore_lit_cons] at hm
        by_cases hx : ciEq x c
        · rw [if_pos hx] at hm
          obtain ⟨pre, hpre⟩ := ih r rest g hm
          exact ⟨x :: pre, by rw [hpre]; rfl⟩
        · rw [if_neg hx] at hm
          exact absurd hm (by simp)
    | verGroup =>
      simp only [List.cons_append, matchCore] at hm
      obtain ⟨j, hj1, hjk, hfj⟩ := tryPlus_some_exists hm
      rcases Option.map_eq_some'.mp hfj with ⟨p, hp, hpe⟩
      have hp1 : p.1 = rest := by
        have := congrArg Prod.fst hpe
        simpa using this
      obtain ⟨pre, hpre⟩ := ih (rem.drop j) p.1 p.2 (by
        rw [← hp]
        rfl)
      rw [hp1] at hpre
      exact ⟨rem.take j ++ pre, append_of_drop hpre⟩

lemma matchCore_release_split {rem rest g : List Char}
    (hm : matchCore releaseItems rem = some (rest, g)) :
    ∃ pre, rem = pre ++ '\n' :: rest := by
  have hshape : releaseItems =
      [RItem.wsStar, RItem.eqPlus, RItem.wsStar, RItem.litNL, RItem.wsStar,
       RItem.lit 'R', RItem.lit 'E', RItem.lit 'L', RItem.lit 'E', RItem.lit 'A',
       RItem.lit 'S', RItem.lit 'E', RItem.lit ':',
       RItem.wsStar, RItem.verGroup, RItem.wsStar, RItem.litNL, RItem.wsStar,
       RItem.eqPlus] ++ [RItem.wsStar, RItem.litNL] := rfl
  exact matchCore_append_split _ rem rest g (hshape ▸ hm)

lemma matchCore_release_strict {rem rest g : List Char}
    (hm : matchCore releaseItems rem = some (rest, g)) :
    rest.length < rem.length := by
  obtain ⟨pre, hpre⟩ := matchCore_release_split hm
  rw [hpre]
  simp only [List.length_append, List.length_cons]
  omega

lemma findFirstDelim_split {b : Bool} {s pre g rest : List Char}
    (h : findFirstDelim b s = some (pre, g, rest)) :
    ∃ mid, s = pre ++ mid ++ '\n' :: rest := by
  induction s generalizing b pre with
  | nil =>
    rw [findFirstDelim] at h
    have h0 : matchCore releaseItems ([] : List Char) = none := rfl
    cases b <;> simp [h0] at h
  | cons c s2 ih =>
    rw [findFirstDelim] at h
    cases hm : (if b then matchCore releaseItems (c :: s2) else none) with
    | some p =>
      obtain ⟨rest0, g0⟩ := p
      rw [hm] at h
      simp only [Option.some.injEq, Prod.mk.injEq] at h
      obtain ⟨h1, h2, h3⟩ := h
      have hb : matchCore releaseItems (c :: s2) = some (rest, g) := by
        cases b with
        | false => simp at hm
        | true => rw [← h3, ← h2]; simpa using hm
      obtain ⟨mid, hmid⟩ := matchCore_release_split hb
      exact ⟨mid, by rw [← h1, List.nil_append, hmid]⟩
    | none =>
      rw [hm] at h
      simp only [Option.map_eq_some'] at h
      obtain ⟨p, hp, hpe⟩ := h
      obtain ⟨q1, q2, q3⟩ := p
      simp only [Prod.mk.injEq] at hpe
      obtain ⟨he1, he2, he3⟩ := hpe
      rw [he2, he3] at hp
      obtain ⟨mid, hmid⟩ := ih hp
      refine ⟨mid, ?_⟩
      rw [← he1, hmid]
      rfl

lemma findFirstDelim_rest_lt {b : Bool} {s pre g rest : List Char}
    (h : findFirstDelim b s = some (pre, g, rest)) :
    rest.length < s.length := by
  obtain ⟨mid, hmid⟩ := findFirstDelim_split h
  rw [hmid]
  simp only [List.length_append, List.length_cons]
  omega

/-! ## `re.split` and `load_summaries` (mesa_viewer.py lines 865-892)

`re.split` with one capture group alternates the text between matches with
the captured versions: `[pre, g1, mid1, g2, mid2, ..., gk, tail]`.  The
fuel argument only bounds the recursion; `findFirstDelim_rest_lt` shows one
unit per match suffices, and `pySplitAux_fuel` below shows the bound is
never hit. -/

def pySplitAux : Nat → List Char → List (List Char)
  | 0, s => [s]
  | fuel + 1, s =>
    match findFirstDelim true s with
    | none => [s]
    | some (pre, g, rest) => pre :: g :: pySplitAux fuel rest

/-- Python `RELEASE_NOTES_PATTERN.split(content)`. -/
def pySplitParts (s : List Char) : List (List Char) := pySplitAux (s.length + 1) s

lemma pySplitAux_fuel (f1 : Nat) :
    ∀ (f2 : Nat) (s : List Char), s.length < f1 → s.length < f2 →
      pySplitAux f1 s = pySplitAux f2 s := by
  induction f1 with
  | zero => intro f2 s h1 h2; omega
  | succ f1 ih =>
    intro f2 s h1 h2
    cases f2 with
    | zero => omega
    | succ f2 =>
      rw [pySplitAux, pySplitAux]
      cases hf : findFirstDelim true s with
      | none => rfl
      | some p =>
        obtain ⟨pre, g, rest⟩ := p
        have hlt := findFirstDelim_rest_lt hf
        simp only [ih f2 rest (by omega) (by omega)]

lemma pySplitParts_eq (s : List Char) :
    pySplitParts s = match findFirstDelim true s with
      | none => [s]
      | some (pre, g, rest) => pre :: g :: pySplitParts rest := by
  rw [pySplitParts, pySplitAux]
  cases hf : findFirstDelim true s with
  | none => rfl
  | some p =>
    obtain ⟨pre, g, rest⟩ := p
    have hlt := findFirstDelim_rest_lt hf
    simp only [pySplitAux_fuel s.length (rest.length + 1) rest (by omega) (by omega)]
    rfl

/-- The loop `for i in range(1, len(parts), 2): if i + 1 < len(parts)`:
take the alternating tail of the parts array two at a time, dropping an
unpaired leftover. -/
def pairUp : List (List Char) → List (List Char × List Char)
  | g :: t :: rest => (g, t) :: pairUp rest
  | _ => []

/-- CPython `dict` assignment `d[k] = v`: replace in place when the key
exists (keeping its insertion position), otherwise append. -/
def upsert (d : List (String × String)) (k v : String) : List (String × String) :=
  if d.any fun p => p.1 == k then
    d.map fun p => if p.1 == k then (k, v) else p
  else d ++ [(k, v)]

/-- Embedding of `load_summaries` on the text of the summaries cache file:
split on the delimiter pattern, then pair each stripped capture with the
following text segment, last occurrence winning.  Total, so parsing never
raises, and a document without any delimiter yields an empty mapping. -/
def load_summaries (content : String) : List (String × String) :=
  match pySplitParts content.data with
  | [] => []
  | _ :: rest =>
    (pairUp rest).foldl
      (fun d p => upsert d (String.mk (pyStripChars p.1)) (String.mk p.2)) []

/-! ## Missing cache files (mesa_viewer.py lines 823-892)

Both loaders reset their in-memory structure first and touch the file only
behind an `os.path.exists` check; the argument below is the file's content
when it exists, `none` when it does not. -/

def load_data_file (cache : Option String) : List CommitRecord :=
  match cache with
  | none => []
  | some text => load_data text

def load_summaries_file (cache : Option String) : List (String × String) :=
  match cache with
  | none => []
  | some text => load_summaries text

/-- Claim C10: when the history cache file does not exist the record
sequence stays empty, and when the summaries cache file does not exist the
version-to-body mapping stays empty; both loads complete without raising. -/
theorem C10_missing_cache_files :
    load_data_file none = [] ∧ load_summaries_file none = [] :=
  ⟨rfl, rfl⟩

/-! The final `\s*\n` of the pattern is greedy: the match ends just after
the last `'\n'` of the trailing whitespace run, so the text left after a
match never starts with `'\n'`.  This is why the blank line the compiler
emits after a delimiter block is consumed by the match rather than kept in
the following body. -/

lemma tryStar_max {f : Nat → Option α} {k : Nat} {v : α}
    (h : tryStar f k = some v) :
    ∃ j ≤ k, f j = some v ∧ ∀ i, j < i → i ≤ k → f i = none := by
  induction k with
  | zero => exact ⟨0, Nat.le_refl 0, h, fun i h1 h2 => by omega⟩
  | succ k ih =>
    rw [tryStar] at h
    cases htop : f (k + 1) with
    | some w =>
      rw [htop] at h
      refine ⟨k + 1, Nat.le_refl _, htop.trans (by simpa using h),
        fun i h1 h2 => by omega⟩
    | none =>
      rw [htop] at h
      obtain ⟨j, hjle, hfj, hmax⟩ := ih h
      refine ⟨j, Nat.le_succ_of_le hjle, hfj, fun i h1 h2 => ?_⟩
      rcases Nat.lt_or_ge i (k + 1) with hi | hi
      · exact hmax i h1 (Nat.lt_succ_iff.mp hi)
      · have : i = k + 1 := Nat.le_antisymm h2 hi
        rw [this]; exact htop

lemma dropWhile_eq_drop (p : Char → Bool) (l : List Char) :
    l.dropWhile p = l.drop (l.takeWhile p).length := by
  induction l with
  | nil => rfl
  | cons a t ih =>
    by_cases ha : p a
    · simp [List.dropWhile_cons, List.takeWhile_cons, ha, ih]
    · simp [List.dropWhile_cons, List.takeWhile_cons, ha]

lemma matchCore_append_rest_head (items : List RItem) :
    ∀ (rem rest g : List Char),
      matchCore (items ++ [RItem.wsStar, RItem.litNL]) rem = some (rest, g) →
      rest.head? ≠ some '\n' := by
  induction items with
  | nil =>
    intro rem rest g hm
    have hm' : tryStar (fun j => matchCore [RItem.litNL] (rem.drop j))
        (rem.takeWhile isPyWs).length = some (rest, g) := hm
    obtain ⟨j, hjle, hfj, hmax⟩ := tryStar_max hm'
    cases hdrop : rem.drop j with
    | nil => rw [hdrop, matchCore_litNL_nil] at hfj; exact absurd hfj (by simp)
    | cons c r =>
      rw [hdrop, matchCore_litNL_cons] at hfj
      by_cases hc : c == '\n'
      · rw [if_pos hc] at hfj
        simp only [matchCore, Option.some.injEq, Prod.mk.injEq] at hfj
        intro hhead
        -- rest starts with a newline: the engine would have consumed it too.
        have hcnl : c = '\n' := by simpa using hc
        have hrest : rest = r := hfj.1.symm
        cases hr2 : r with
        | nil => rw [hrest, hr2] at hhead; simp at hhead
        | cons d r2 =>
          rw [hrest, hr2] at hhead
          simp only [List.head?_cons, Option.some.injEq] at hhead
          -- positions j and j+1 both hold a newline, hence lie inside the
          -- whitespace run, so the search also tried j+1 and succeeded.
          have hjlt : j < (rem.takeWhile isPyWs).length := by
            rcases Nat.lt_or_ge j (rem.takeWhile isPyWs).length with h | h
            · exact h
            · exfalso
              have hje : j = (rem.takeWhile isPyWs).length := Nat.le_antisymm hjle h
              have := head_dropWhile_not isPyWs rem c
                (by rw [dropWhile_eq_drop, ← hje, hdrop]; rfl)
              rw [hcnl] at this
              simp [isPyWs] at this
          have hdrop1 : rem.drop (j + 1) = '\n' :: r2 := by
            have : rem.drop (j + 1) = (rem.drop j).drop 1 := by
              rw [List.drop_drop, Nat.add_comm]
            rw [this, hdrop, hr2]
            simpa using hhead
          have hj1le : j + 1 ≤ (rem.takeWhile isPyWs).length := hjlt
          have := hmax (j + 1) (Nat.lt_succ_self j) hj1le
          rw [hdrop1, matchCore_litNL_cons] at this
          simp [matchCore] at this
      · rw [if_neg hc] at hfj
        exact absurd hfj (by simp)
  | cons i tail ih =>
    intro rem rest g hm
    cases i with
    | wsStar =>
      simp only [List.cons_append, matchCore] at hm
      obtain ⟨j, hjle, hfj⟩ := tryStar_some_exists hm
      exact ih (rem.drop j) rest g hfj
    | eqPlus =>
      simp only [List.cons_append, matchCore] at hm
      obtain ⟨j, hj1, hjk, hfj⟩ := tryPlus_some_exists hm
      exact ih (rem.drop j) rest g hfj
    | litNL =>
      rw [List.cons_append] at hm
      cases rem with
      | nil => rw [matchCore_litNL_nil] at hm; exact absurd hm (by simp)
      | cons x r =>
        rw [matchCore_litNL_cons] at hm
        by_cases hx : x == '\n'
        · rw [if_pos hx] at hm
          exact ih r rest g hm
        · rw [if_neg hx] at hm
          exact absurd hm (by simp)
    | lit c =>
      rw [List.cons_append] at hm
      cases rem with
      | nil => rw [matchCore_lit_nil] at hm; exact absurd hm (by simp)
      | cons x r =>
        rw [matchCore_lit_cons] at hm
        by_cases hx : ciEq x c
        · rw [if_pos hx] at hm
          exact ih r rest g hm
        · rw [if_neg hx] at hm
          exact absurd hm (by simp)
    | verGroup =>
      simp only [List.cons_append, matchCore] at hm
      obtain ⟨j, hj1, hjk, hfj⟩ := tryPlus_some_exists hm
      rcases Option.map_eq_some'.mp hfj with ⟨p, hp, hpe⟩
      have hp1 : p.1 = rest := by
        have := congrArg Prod.fst hpe
        simpa using this
      have := ih (rem.drop j) p.1 p.2 (by rw [← hp]; rfl)
      rwa [hp1] at this

lemma matchCore_release_rest_head {rem rest g : List Char}
    (hm : matchCore releaseItems rem = some (rest, g)) :
    rest.head? ≠ some '\n' := by
  have hshape : releaseItems =
      [RItem.wsStar, RItem.eqPlus, RItem.wsStar, RItem.litNL, RItem.wsStar,
       RItem.lit 'R', RItem.lit 'E', RItem.lit 'L', RItem.lit 'E', RItem.lit 'A',
       RItem.lit 'S', RItem.lit 'E', RItem.lit ':',
       RItem.wsStar, RItem.verGroup, RItem.wsStar, RItem.litNL, RItem.wsStar,
       RItem.eqPlus] ++ [RItem.wsStar, RItem.litNL] := rfl
  exact matchCore_append_rest_head _ rem rest g (hshape ▸ hm)

lemma findFirstDelim_rest_head {b : Bool} {s pre g rest : List Char}
    (h : findFirstDelim b s = some (pre, g, rest)) :
    rest.head? ≠ some '\n' := by
  induction s generalizing b pre with
  | nil =>
    rw [findFirstDelim] at h
    have h0 : matchCore releaseItems ([] : List Char) = none := rfl
    cases b <;> simp [h0] at h
  | cons c s2 ih =>
    rw [findFirstDelim] at h
    cases hm : (if b then matchCore releaseItems (c :: s2) else none) with
    | some p =>
      obtain ⟨rest0, g0⟩ := p
      rw [hm] at h
      simp only [Option.some.injEq, Prod.mk.injEq] at h
      obtain ⟨h1, h2, h3⟩ := h
      have hb : matchCore releaseItems (c :: s2) = some (rest, g) := by
        cases b with
        | false => simp at hm
        | true => rw [← h3, ← h2]; simpa using hm
      exact matchCore_release_rest_head hb
    | none =>
      rw [hm] at h
      simp only [Option.map_eq_some'] at h
      obtain ⟨p, hp, hpe⟩ := h
      obtain ⟨q1, q2, q3⟩ := p
      simp only [Prod.mk.injEq] at hpe
      obtain ⟨he1, he2, he3⟩ := hpe
      rw [he2, he3] at hp
      exact ih hp

/-! A scanner-level view of the parse for claim C6: the captures with the
text segment following each match up to the next match (or the document
end), built directly from `findFirstDelim` rather than from the parts
array. -/

def delimPairsAux : Nat → List Char → List (List Char × List Char)
  | 0, _ => []
  | fuel + 1, s =>
    match findFirstDelim true s with
    | none => []
    | some (_, g, rest) =>
      match findFirstDelim true rest with
      | none => [(g, rest)]
      | some (pre2, _, _) => (g, pre2) :: delimPairsAux fuel rest

def delimPairs (s : List Char) : List (List Char × List Char) :=
  delimPairsAux (s.length + 1) s

lemma delimPairsAux_fuel (f1 : Nat) :
    ∀ (f2 : Nat) (s : List Char), s.length < f1 → s.length < f2 →
      delimPairsAux f1 s = delimPairsAux f2 s := by
  induction f1 with
  | zero => intro f2 s h1 h2; omega
  | succ f1 ih =>
    intro f2 s h1 h2
    cases f2 with
    | zero => omega
    | succ f2 =>
      rw [delimPairsAux, delimPairsAux]
      cases hf : findFirstDelim true s with
      | none => rfl
      | some p =>
        obtain ⟨pre, g, rest⟩ := p
        have hlt := findFirstDelim_rest_lt hf
        simp only [ih f2 rest (by omega) (by omega)]

lemma delimPairs_eq (s : List Char) :
    delimPairs s = match findFirstDelim true s with
      | none => []
      | some (_, g, rest) =>
        match findFirstDelim true rest with
        | none => [(g, rest)]
        | some (pre2, _, _) => (g, pre2) :: delimPairs rest := by
  rw [delimPairs, delimPairsAux]
  cases hf : findFirstDelim true s with
  | none => rfl
  | some p =>
    obtain ⟨pre, g, rest⟩ := p
    have hlt := findFirstDelim_rest_lt hf
    simp only [delimPairsAux_fuel s.length (rest.length + 1) rest (by omega) (by omega)]
    rfl

lemma pairUp_splitParts_bounded :
    ∀ (n : Nat) (s : List Char), s.length ≤ n →
      pairUp (pySplitParts s).tail = delimPairs s := by
  intro n
  induction n with
  | zero =>
    intro s hle
    have hnil : s = [] := List.length_eq_zero.mp (Nat.le_zero.mp hle)
    subst hnil
    rfl
  | succ n ih =>
    intro s hle
    rw [pySplitParts_eq, delimPairs_eq]
    cases hf : findFirstDelim true s with
    | none => rfl
    | some p =>
      obtain ⟨pre, g, rest⟩ := p
      have hlt := findFirstDelim_rest_lt hf
      simp only [List.tail_cons]
      rw [pySplitParts_eq rest]
      cases hf2 : findFirstDelim true rest with
      | none => rfl
      | some p2 =>
        obtain ⟨pre2, g2, rest2⟩ := p2
        have : pairUp (g :: pre2 :: g2 :: pySplitParts rest2) =
            (g, pre2) :: pairUp (g2 :: pySplitParts rest2) := rfl
        rw [this]
        have htail : pairUp (g2 :: pySplitParts rest2) = pairUp (pySplitParts rest).tail := by
          rw [pySplitParts_eq rest, hf2]
          rfl
        rw [htail, ih rest (by omega)]

lemma pairUp_splitParts (s : List Char) :
    pairUp (pySplitParts s).tail = delimPairs s :=
  pairUp_splitParts_bounded s.length s (Nat.le_refl _)

lemma pySplitParts_ne_nil (s : List Char) : pySplitParts s ≠ [] := by
  rw [pySplitParts_eq]
  cases hf : findFirstDelim true s with
  | none => simp
  | some p => obtain ⟨pre, g, rest⟩ := p; simp

lemma load_summaries_eq_pairs (doc : String) :
    load_summaries doc = (delimPairs doc.data).foldl
      (fun d p => upsert d (String.mk (pyStripChars p.1)) (String.mk p.2)) [] := by
  have h1 : load_summaries doc = (pairUp (pySplitParts doc.data).tail).foldl
      (fun d p => upsert d (String.mk (pyStripChars p.1)) (String.mk p.2)) [] := by
    rw [load_summaries]
    cases hs : pySplitParts doc.data with
    | nil => exact absurd hs (pySplitParts_ne_nil doc.data)
    | cons h0 rest => rfl
  rw [h1, pairUp_splitParts]

lemma delimPairs_body_head (s : List Char) :
    ∀ p ∈ delimPairs s, p.2.head? ≠ some '\n' := by
  have H : ∀ (n : Nat) (s : List Char), s.length ≤ n →
      ∀ p ∈ delimPairs s, p.2.head? ≠ some '\n' := by
    intro n
    induction n with
    | zero =>
      intro s hle p hp
      have hnil : s = [] := List.length_eq_zero.mp (Nat.le_zero.mp hle)
      subst hnil
      simp [delimPairs, delimPairsAux, findFirstDelim, show matchCore releaseItems
        ([] : List Char) = none from rfl] at hp
    | succ n ih =>
      intro s hle p hp
      cases hf : findFirstDelim true s with
      | none =>
        have hd : delimPairs s = [] := by rw [delimPairs_eq, hf]
        rw [hd] at hp
        simp at hp
      | some q =>
        obtain ⟨pre, g, rest⟩ := q
        have hresth : rest.head? ≠ some '\n' := findFirstDelim_rest_head hf
        have hlt := findFirstDelim_rest_lt hf
        cases hf2 : findFirstDelim true rest with
        | none =>
          have hd : delimPairs s = [(g, rest)] := by
            rw [delimPairs_eq]
            simp only [hf, hf2]
          rw [hd] at hp
          simp only [List.mem_singleton] at hp
          rw [hp]
          exact hresth
        | some q2 =>
          obtain ⟨pre2, g2, rest2⟩ := q2
          have hd : delimPairs s = (g, pre2) :: delimPairs rest := by
            rw [delimPairs_eq]
            simp only [hf, hf2]
          rw [hd] at hp
          rcases List.mem_cons.mp hp with rfl | hp2
          · -- the segment is the scanned text before the next match, a
            -- front part of `rest`, so it starts like `rest` does.
            obtain ⟨mid, hmid⟩ := findFirstDelim_split hf2
            cases hpre2 : pre2 with
            | nil => simp
            | cons d t =>
              intro hcontra
              simp only [hpre2, List.head?_cons, Option.some.injEq] at hcontra
              apply hresth
              rw [hmid, hpre2, hcontra]
              rfl
          · exact ih rest (by omega) p hp2
  exact H s.length s (Nat.le_refl _)

/-- Claim C6 (amended): `load_summaries` never raises; it pairs each
captured version, trimmed of surrounding whitespace, with the verbatim
untrimmed text segment that follows its delimiter match up to the next
match or the end of the document; a document without a matching delimiter
yields an empty mapping.  One correction to the claim: the leading blank
line the compiler emits after a delimiter block is consumed by the
delimiter match itself (its trailing `\s*\n` is greedy), so a body never
begins with a newline rather than keeping that blank line. -/
theorem C6_load_summaries_pairs (doc : String) :
    load_summaries doc = (delimPairs doc.data).foldl
      (fun d p => upsert d (String.mk (pyStripChars p.1)) (String.mk p.2)) [] ∧
    (findFirstDelim true doc.data = none → load_summaries doc = []) ∧
    (∀ p ∈ delimPairs doc.data, p.2.head? ≠ some '\n') := by
  refine ⟨load_summaries_eq_pairs doc, fun hnone => ?_, delimPairs_body_head doc.data⟩
  rw [load_summaries_eq_pairs doc, delimPairs_eq, hnone]
  rfl

/-- Witness for C6: a concrete document with one delimiter block and one
without any. -/
theorem C6_load_summaries_witness :
    load_summaries "plain text, no delimiter" = [] ∧
    load_summaries "x\n==\nRELEASE: 1.0\n==\nbody" = [("1.0", "body")] := by
  constructor
  · exact (C6_load_summaries_pairs "plain text, no delimiter").2.1 (by decide)
  · have h := (C6_load_summaries_pairs "x\n==\nRELEASE: 1.0\n==\nbody").1
    rw [h]
    decide

/-! ## `generate_summaries_python` (mesa_viewer.py lines 773-821)

Filenames are filtered by `re.match(r"^\d+\.\d+(\.\d+)?\.rst$", f)`, sorted
descending by the nested `version_key` (whose body is identical to
`get_version_key`) with Python's stable sort, truncated to the newest 50,
and concatenated into one document: a title line, then per release the
f-string `"\n" + "="*50 + "\n RELEASE: " + version + "\n" + "="*50 + "\n\n"`
followed by the file content. -/

/-- Python list comparison on integer lists (lexicographic, shorter list
first on ties), the order `sort(key=..)` uses. -/
def intListLt : List Int → List Int → Bool
  | [], [] => false
  | [], _ :: _ => true
  | _ :: _, [] => false
  | a :: as, b :: bs => a < b || (a == b && intListLt as bs)

/-- Stable descending insertion by version key: an element passes everything
with a strictly greater key and stops before the first element whose key is
not greater, so equal keys keep their original order — the same ordering
`files.sort(key=version_key, reverse=True)` produces. -/
def insertDesc (x : String × String) : List (String × String) → List (String × String)
  | [] => [x]
  | y :: ys =>
    if intListLt (get_version_key x.1) (get_version_key y.1) then y :: insertDesc x ys
    else x :: y :: ys

def sortDesc : List (String × String) → List (String × String)
  | [] => []
  | x :: xs => insertDesc x (sortDesc xs)

/-- The filename filter `^\d+\.\d+(\.\d+)?\.rst$`: splitting on `'.'` must
give two or three nonempty all-digit groups followed by the literal `rst`
segment (dots delimit segments, and the regex's groups contain no dots, so
the regex holds exactly when the segment list has this shape). -/
def nameOk (f : String) : Bool :=
  match splitOnChar '.' f.data with
  | [a, b, r] =>
    !a.isEmpty && !b.isEmpty && a.all isDigitC && b.all isDigitC && r == ['r', 's', 't']
  | [a, b, c, r] =>
    !a.isEmpty && !b.isEmpty && !c.isEmpty &&
    a.all isDigitC && b.all isDigitC && c.all isDigitC && r == ['r', 's', 't']
  | _ => false

def eqRun : List Char := List.replicate 50 '='

/-- The delimiter block the compiler writes before each release body. -/
def delimBlock (v : List Char) : List Char :=
  ['\n'] ++ eqRun ++ ['\n', ' ', 'R', 'E', 'L', 'E', 'A', 'S', 'E', ':', ' '] ++
    v ++ ['\n'] ++ eqRun ++ ['\n', '\n']

/-- The concatenated release blocks, in compile order. -/
def blocksList (L : List (String × String)) : List Char :=
  L.foldr (fun p acc => delimBlock (pyRemoveRst p.1.data) ++ p.2.data ++ acc) []

/-- Embedding of `generate_summaries_python` as the document it writes to
the summaries cache, from the directory listing `(filename, content)` in
listing order. -/
def generate_summaries (files : List (String × String)) : String :=
  String.mk ("MESA RELEASE NOTES COMPILATION\n\n".data ++
    blocksList ((sortDesc (files.filter fun p => nameOk p.1)).take 50))

set_option maxRecDepth 10000 in
/-- Counterexample for C6 as stated: the compiler emits a blank line after
each delimiter block, but the pattern's trailing greedy `\s*\n` consumes it,
so the parsed body is `"hello\n"`, not the `"\nhello\n"` the claim's
"preserved verbatim including the leading blank line" predicts. -/
theorem C6_leading_blank_line_counterexample :
    List.lookup "1.0" (load_summaries (generate_summaries [("1.0.rst", "hello\n")]))
      = some "hello\n" ∧
    some ("hello\n" : String) ≠ some ("\nhello\n" : String) := by
  decide

set_option maxRecDepth 40000 in
/-- Counterexample for C2 as stated: compiling a release file whose content
lacks a trailing newline hands the parser a body with one extra trailing
newline (the following delimiter's leading newline), a difference the
claim's leading-blank-line allowance does not cover. -/
theorem C2_roundtrip_counterexample :
    List.lookup "2.0" (load_summaries (generate_summaries
      [("2.0.rst", "hello"), ("1.0.rst", "world")])) = some "hello\n" ∧
    some ("hello\n" : String) ≠ some ("hello" : String) ∧
    some ("hello\n" : String) ≠ some ("\nhello" : String) := by
  decide

/-! ## Helpers for reasoning about runs and appends -/

lemma takeWhile_append_of_all (p : Char → Bool) (A B : List Char) (h : A.all p) :
    (A ++ B).takeWhile p = A ++ B.takeWhile p := by
  induction A with
  | nil => rfl
  | cons a t ih =>
    simp only [List.all_cons, Bool.and_eq_true] at h
    simp [List.takeWhile_cons, h.1, ih h.2]

lemma dropWhile_append_of_all (p : Char → Bool) (A B : List Char) (h : A.all p) :
    (A ++ B).dropWhile p = B.dropWhile p := by
  induction A with
  | nil => rfl
  | cons a t ih =>
    simp only [List.all_cons, Bool.and_eq_true] at h
    simp [List.dropWhile_cons, h.1, ih h.2]

lemma takeWhile_append_of_not_all (p : Char → Bool) (A B : List Char)
    (h : A.all p = false) : (A ++ B).takeWhile p = A.takeWhile p := by
  induction A with
  | nil => simp at h
  | cons a t ih =>
    by_cases ha : p a
    · simp only [List.all_cons, ha, Bool.true_and] at h
      simp [List.takeWhile_cons, ha, ih h]
    · simp [List.takeWhile_cons, ha]

lemma dropWhile_append_of_not_all (p : Char → Bool) (A B : List Char)
    (h : A.all p = false) : (A ++ B).dropWhile p = A.dropWhile p ++ B := by
  induction A with
  | nil => simp at h
  | cons a t ih =>
    by_cases ha : p a
    · simp only [List.all_cons, ha, Bool.true_and] at h
      simp [List.dropWhile_cons, ha, ih h]
    · simp [List.dropWhile_cons, ha]

lemma takeWhile_eq_self_of_all (p : Char → Bool) (l : List Char) (h : l.all p) :
    l.takeWhile p = l := by
  induction l with
  | nil => rfl
  | cons a t ih =>
    simp only [List.all_cons, Bool.and_eq_true] at h
    simp [List.takeWhile_cons, h.1, ih h.2]

lemma takeWhile_eq_nil_of_head (p : Char → Bool) (l : List Char)
    (h : ∀ c, l.head? = some c → p c = false) : l.takeWhile p = [] := by
  cases l with
  | nil => rfl
  | cons a t => simp [List.takeWhile_cons, h a rfl]

lemma dropWhile_ne_nil_of_not_all (p : Char → Bool) (l : List Char)
    (h : l.all p = false) : l.dropWhile p ≠ [] := by
  induction l with
  | nil => simp at h
  | cons a t ih =>
    by_cases ha : p a
    · simp only [List.all_cons, ha, Bool.true_and] at h
      simpa [List.dropWhile_cons, ha] using ih h
    · simp [List.dropWhile_cons, ha]

lemma head_mem_of_head? {l : List Char} {c : Char} (h : l.head? = some c) : c ∈ l := by
  cases l with
  | nil => simp at h
  | cons a t =>
    simp only [List.head?_cons, Option.some.injEq] at h
    rw [← h]
    exact List.mem_cons_self a t

lemma drop_head_mem_takeWhile (p : Char → Bool) :
    ∀ (l : List Char) (j : Nat), j < (l.takeWhile p).length →
      ∃ c, (l.drop j).head? = some c ∧ c ∈ l.takeWhile p := by
  intro l
  induction l with
  | nil => intro j h; simp at h
  | cons a t ih =>
    intro j h
    by_cases ha : p a
    · rw [List.takeWhile_cons_of_pos ha] at h ⊢
      cases j with
      | zero => exact ⟨a, rfl, List.mem_cons_self _ _⟩
      | succ j =>
        obtain ⟨c, hc, hmem⟩ := ih j (by simpa using Nat.lt_of_succ_lt_succ h)
        exact ⟨c, by simpa using hc, List.mem_cons_of_mem a hmem⟩
    · rw [List.takeWhile_cons_of_neg ha] at h
      simp at h

lemma verC_not_ws {c : Char} (h : isVerC c = true) : isPyWs c = false := by
  cases hws : isPyWs c with
  | false => rfl
  | true =>
    exfalso
    simp only [isPyWs, Bool.or_eq_true, beq_iff_eq] at hws
    rcases hws with ((((rfl | rfl) | rfl) | rfl) | rfl) | rfl <;>
      simp [isVerC, isDigitC] at h

lemma ws_ne_eq {c : Char} (h : isPyWs c = true) : c ≠ '=' := by
  intro hc
  rw [hc] at h
  simp [isPyWs] at h

/-! ## Failure of the pattern away from `'='` runs -/

lemma matchCore_litNL_none_of_head (rest : List RItem) (l : List Char)
    (h : ∀ c, l.head? = some c → c ≠ '\n') :
    matchCore (RItem.litNL :: rest) l = none := by
  cases l with
  | nil => exact matchCore_litNL_nil rest
  | cons a t =>
    rw [matchCore_litNL_cons, if_neg]
    simp only [beq_iff_eq]
    exact h a rfl

lemma matchCore_none_of_no_eq (rem : List Char)
    (h : ∀ c, (rem.dropWhile isPyWs).head? = some c → c ≠ '=') :
    matchCore releaseItems rem = none := by
  have hm : matchCore releaseItems rem =
      tryStar (fun j => matchCore (releaseItems.drop 1) (rem.drop j))
        (rem.takeWhile isPyWs).length := rfl
  rw [hm]
  apply tryStar_none
  intro j hj
  have hplus : matchCore (releaseItems.drop 1) (rem.drop j) =
      tryPlus (fun i => matchCore (releaseItems.drop 2) ((rem.drop j).drop i))
        ((rem.drop j).takeWhile (· == '=')).length := rfl
  rw [hplus]
  have hkz : ((rem.drop j).takeWhile (· == '=')).length = 0 := by
    rw [List.length_eq_zero]
    apply takeWhile_eq_nil_of_head
    intro c hc
    rcases Nat.lt_or_ge j (rem.takeWhile isPyWs).length with hlt | hge
    · obtain ⟨d, hd, hdm⟩ := drop_head_mem_takeWhile isPyWs rem j hlt
      rw [hd] at hc
      injection hc with hc
      have hdw : isPyWs d = true := by
        have := all_takeWhile isPyWs rem
        exact (List.all_eq_true.mp this) d hdm
      subst hc
      simp only [beq_eq_false_iff_ne]
      exact ws_ne_eq hdw
    · have hje : j = (rem.takeWhile isPyWs).length := Nat.le_antisymm hj hge
      have : (rem.drop j).head? = (rem.dropWhile isPyWs).head? := by
        rw [dropWhile_eq_drop, hje]
      rw [this] at hc
      simp only [beq_eq_false_iff_ne]
      exact h c hc
  rw [hkz]
  rfl

lemma findFirstDelim_none {s : List Char} (h : ∀ c ∈ s, c ≠ '=') :
    ∀ b, findFirstDelim b s = none := by
  induction s with
  | nil => intro b; cases b <;> rfl
  | cons a t ih =>
    intro b
    rw [findFirstDelim]
    have hmc : matchCore releaseItems (a :: t) = none := by
      apply matchCore_none_of_no_eq
      intro c hc
      apply h
      have hsub : ((a :: t).dropWhile isPyWs) ⊆ a :: t := by
        rw [dropWhile_eq_drop]
        exact List.drop_subset _ _
      exact hsub (head_mem_of_head? hc)
    have hcond : (if b then matchCore releaseItems (a :: t) else none) = none := by
      cases b
      · rfl
      · exact hmc
    rw [hcond]
    have hih := ih (fun c hc => h c (List.mem_cons_of_mem a hc)) (a == '\n')
    show (findFirstDelim (a == '\n') t).map (fun p => (a :: p.1, p.2.1, p.2.2)) = none
    rw [hih]
    rfl

/-! ## The scanner walks unharmed through delimiter-free benign text -/

/-- Line-start state after walking a segment: determined by its last
character, or unchanged when the segment is empty. -/
def lastFlag (atLS : Bool) (s : List Char) : Bool :=
  match s.getLast? with
  | some c => c == '\n'
  | none => atLS

lemma lastFlag_cons (atLS : Bool) (c : Char) (s2 : List Char) :
    lastFlag atLS (c :: s2) = lastFlag (c == '\n') s2 := by
  cases s2 with
  | nil => rfl
  | cons d t =>
    show lastFlag atLS (c :: d :: t) = lastFlag (c == '\n') (d :: t)
    unfold lastFlag
    rw [List.getLast?_cons_cons]
    cases hg : (d :: t).getLast? with
    | none =>
      exfalso
      have := List.getLast?_eq_none_iff.mp hg
      exact List.cons_ne_nil d t this
    | some e => rfl

/-- Scanning across a segment with no `'='`, no all-whitespace run at its
own start when already at a line start, and no interior newline followed
only by whitespace: no match can begin inside it, so the first match lies
in the continuation and the segment lands in the skipped-prefix slot. -/
lemma scanThrough (s' : List Char) :
    ∀ (atLS : Bool) (D : List Char),
      (∀ x ∈ s', x ≠ '=') →
      (atLS = true → s'.all isPyWs = true → s' = []) →
      (∀ a b, s' = a ++ '\n' :: b → b.all isPyWs = true → b = []) →
      findFirstDelim atLS (s' ++ D) =
        (findFirstDelim (lastFlag atLS s') D).map
          fun p => (s' ++ p.1, p.2.1, p.2.2) := by
  induction s' with
  | nil =>
    intro atLS D h1 h2 h3
    simp only [List.nil_append]
    have hlf : lastFlag atLS ([] : List Char) = atLS := rfl
    rw [hlf]
    cases hf : findFirstDelim atLS D with
    | none => rfl
    | some p => obtain ⟨pa, pb, pc⟩ := p; simp
  | cons c s2 ih =>
    intro atLS D h1 h2 h3
    have hstep : findFirstDelim atLS ((c :: s2) ++ D) =
        (findFirstDelim (c == '\n') (s2 ++ D)).map fun p => (c :: p.1, p.2.1, p.2.2) := by
      rw [List.cons_append, findFirstDelim]
      have hcond : (if atLS then matchCore releaseItems (c :: (s2 ++ D)) else none) = none := by
        cases hLS : atLS
        · rfl
        · show matchCore releaseItems (c :: (s2 ++ D)) = none
          apply matchCore_none_of_no_eq
          intro x hx
          by_cases hall : (c :: s2).all isPyWs = true
          · exact absurd (h2 hLS hall) (List.cons_ne_nil c s2)
          · have hallf : (c :: s2).all isPyWs = false := by
              revert hall; cases (c :: s2).all isPyWs <;> simp
            have hd : ((c :: s2) ++ D).dropWhile isPyWs =
                (c :: s2).dropWhile isPyWs ++ D :=
              dropWhile_append_of_not_all isPyWs _ D hallf
            rw [List.cons_append] at hd
            rw [hd] at hx
            have hne := dropWhile_ne_nil_of_not_all isPyWs (c :: s2) hallf
            cases hdw : (c :: s2).dropWhile isPyWs with
            | nil => exact absurd hdw hne
            | cons y ys =>
              rw [hdw] at hx
              simp only [List.cons_append, List.head?_cons, Option.some.injEq] at hx
              have hmem : y ∈ (c :: s2).dropWhile isPyWs := by
                rw [hdw]; exact List.mem_cons_self _ _
              have hsub : (c :: s2).dropWhile isPyWs ⊆ c :: s2 := by
                rw [dropWhile_eq_drop]; exact List.drop_subset _ _
              rw [← hx]
              exact h1 y (hsub hmem)
      rw [hcond]
    have h1' : ∀ x ∈ s2, x ≠ '=' := fun x hx => h1 x (List.mem_cons_of_mem c hx)
    have h2' : (c == '\n') = true → s2.all isPyWs = true → s2 = [] := by
      intro hc hall
      have hcc : c = '\n' := by simpa using hc
      exact h3 [] s2 (by rw [hcc]; rfl) hall
    have h3' : ∀ a b, s2 = a ++ '\n' :: b → b.all isPyWs = true → b = [] := by
      intro a b hab hall
      exact h3 (c :: a) b (by rw [hab]; rfl) hall
    rw [hstep, ih (c == '\n') D h1' h2' h3', ← lastFlag_cons atLS c s2]
    cases hf : findFirstDelim (lastFlag atLS (c :: s2)) D with
    | none => rfl
    | some p => obtain ⟨pa, pb, pc⟩ := p; simp

/-! ## The pattern succeeds at a compiled delimiter block -/

lemma head_not_of_takeWhile_nil (p : Char → Bool) (l : List Char)
    (h : l.takeWhile p = []) : ∀ c, l.head? = some c → p c = false := by
  intro c hc
  cases l with
  | nil => simp at hc
  | cons a t =>
    simp only [List.head?_cons, Option.some.injEq] at hc
    subst hc
    by_cases hp : p a
    · rw [List.takeWhile_cons_of_pos hp] at h; simp at h
    · simpa using hp

lemma matchCore_wsStar_skiprun (rest : List RItem) (R rem' : List Char)
    {v : List Char × List Char}
    (hR : R.all isPyWs = true) (hrem : rem'.takeWhile isPyWs = [])
    (h : matchCore rest rem' = some v) :
    matchCore (RItem.wsStar :: rest) (R ++ rem') = some v := by
  have hdef : matchCore (RItem.wsStar :: rest) (R ++ rem') =
      tryStar (fun j => matchCore rest ((R ++ rem').drop j))
        ((R ++ rem').takeWhile isPyWs).length := rfl
  have htw : (R ++ rem').takeWhile isPyWs = R := by
    rw [takeWhile_append_of_all _ _ _ hR, hrem, List.append_nil]
  rw [hdef, htw]
  apply tryStar_of_top
  rw [List.drop_left]
  exact h

lemma matchCore_eqPlus_eqRun (rest : List RItem) (X : List Char)
    {v : List Char × List Char}
    (hX : ∀ c, X.head? = some c → (c == '=') = false)
    (h : matchCore rest X = some v) :
    matchCore (RItem.eqPlus :: rest) (eqRun ++ X) = some v := by
  have hdef : matchCore (RItem.eqPlus :: rest) (eqRun ++ X) =
      tryPlus (fun j => matchCore rest ((eqRun ++ X).drop j))
        ((eqRun ++ X).takeWhile (· == '=')).length := rfl
  have htw : (eqRun ++ X).takeWhile (· == '=') = eqRun := by
    rw [takeWhile_append_of_all _ _ _ (by decide), takeWhile_eq_nil_of_head _ _ hX,
      List.append_nil]
  rw [hdef, htw, show eqRun.length = 50 from by decide]
  apply tryPlus_of_top (by omega)
  rw [List.drop_left' (by decide : eqRun.length = 50)]
  exact h

lemma matchCore_wsStar_litNL_skip (rest : List RItem) (R rem' : List Char)
    {v : List Char × List Char}
    (hR : R.all isPyWs = true) (hRnl : R.all (fun x => !(x == '\n')) = true)
    (hrem : rem'.takeWhile isPyWs = [])
    (h : matchCore rest (R ++ rem') = some v) :
    matchCore (RItem.wsStar :: RItem.litNL :: rest) ('\n' :: (R ++ rem')) = some v := by
  have hdef : matchCore (RItem.wsStar :: RItem.litNL :: rest) ('\n' :: (R ++ rem')) =
      tryStar (fun j => matchCore (RItem.litNL :: rest) (('\n' :: (R ++ rem')).drop j))
        (('\n' :: (R ++ rem')).takeWhile isPyWs).length := rfl
  have htwA : (R ++ rem').takeWhile isPyWs = R := by
    rw [takeWhile_append_of_all _ _ _ hR, hrem, List.append_nil]
  have htw : ('\n' :: (R ++ rem')).takeWhile isPyWs = '\n' :: R := by
    rw [List.takeWhile_cons_of_pos (by decide), htwA]
  rw [hdef, htw]
  have hfail : ∀ i, 0 < i → i ≤ ('\n' :: R).length → (fun j =>
      matchCore (RItem.litNL :: rest) (('\n' :: (R ++ rem')).drop j)) i = none := by
    intro i h0 hle
    obtain ⟨j, rfl⟩ : ∃ j, i = j + 1 := ⟨i - 1, by omega⟩
    simp only [List.drop_succ_cons]
    apply matchCore_litNL_none_of_head
    intro c hc
    rcases Nat.lt_or_ge j R.length with hlt | hge
    · obtain ⟨d, hd, hdm⟩ := drop_head_mem_takeWhile isPyWs (R ++ rem') j
        (by rw [htwA]; exact hlt)
      rw [htwA] at hdm
      rw [hd] at hc
      injection hc with hc
      subst hc
      have := (List.all_eq_true.mp hRnl) d hdm
      simpa using this
    · have hje : j = R.length := by
        simp only [List.length_cons] at hle
        omega
      rw [hje, List.drop_left] at hc
      have := head_not_of_takeWhile_nil isPyWs rem' hrem c hc
      intro hcc
      rw [hcc] at this
      simp [isPyWs] at this
  rw [tryStar_shrink (Nat.zero_le _) hfail]
  show matchCore (RItem.litNL :: rest) ('\n' :: (R ++ rem')) = some v
  rw [matchCore_litNL_cons, if_pos (by decide)]
  exact h

lemma matchCore_verGroup_take (rest : List RItem) (v X : List Char)
    {val : List Char × List Char}
    (hv1 : v ≠ []) (hv2 : v.all isVerC = true)
    (hX : ∀ c, X.head? = some c → isVerC c = false)
    (h : matchCore rest X = some val) :
    matchCore (RItem.verGroup :: rest) (v ++ X) = some (val.1, v) := by
  have hdef : matchCore (RItem.verGroup :: rest) (v ++ X) =
      tryPlus (fun j => (matchCore rest ((v ++ X).drop j)).map
          fun p => (p.1, (v ++ X).take j))
        ((v ++ X).takeWhile isVerC).length := rfl
  have htw : (v ++ X).takeWhile isVerC = v := by
    rw [takeWhile_append_of_all _ _ _ hv2, takeWhile_eq_nil_of_head _ _ hX,
      List.append_nil]
  rw [hdef, htw]
  apply tryPlus_of_top (by
    cases v with
    | nil => exact absurd rfl hv1
    | cons a t => simp)
  rw [List.drop_left, List.take_left, h]
  rfl

/-- The pattern matches at a compiled delimiter block, optionally preceded
by whitespace (absorbed by the leading `\s*`), captures exactly the version,
and ends right at the release body, provided the body's leading whitespace
contains no newline. -/
lemma matchCore_delim (W v tail : List Char)
    (hW : W.all isPyWs = true)
    (hv1 : v ≠ []) (hv2 : v.all isVerC = true)
    (htail : (tail.takeWhile isPyWs).all (fun x => !(x == '\n')) = true) :
    matchCore releaseItems (W ++ (delimBlock v ++ tail)) = some (tail, v) := by
  -- final `\s*\n`: consume through the last newline of the run `"\n\n" ++`
  -- the body's leading whitespace, which by `htail` is the second `'\n'`.
  have h8 : matchCore [RItem.wsStar, RItem.litNL] ('\n' :: '\n' :: tail) =
      some (tail, []) := by
    have hdef : matchCore [RItem.wsStar, RItem.litNL] ('\n' :: '\n' :: tail) =
        tryStar (fun j => matchCore [RItem.litNL] (('\n' :: '\n' :: tail).drop j))
          (('\n' :: '\n' :: tail).takeWhile isPyWs).length := rfl
    have htw : ('\n' :: '\n' :: tail).takeWhile isPyWs =
        '\n' :: '\n' :: tail.takeWhile isPyWs := by
      rw [List.takeWhile_cons_of_pos (by decide), List.takeWhile_cons_of_pos (by decide)]
    rw [hdef, htw]
    have hfail : ∀ i, 1 < i → i ≤ ('\n' :: '\n' :: tail.takeWhile isPyWs).length →
        (fun j => matchCore [RItem.litNL] (('\n' :: '\n' :: tail).drop j)) i = none := by
      intro i h1i hle
      obtain ⟨j, rfl⟩ : ∃ j, i = j + 2 := ⟨i - 2, by omega⟩
      simp only [List.drop_succ_cons]
      apply matchCore_litNL_none_of_head
      intro c hc
      rcases Nat.lt_or_ge j (tail.takeWhile isPyWs).length with hlt | hge
      · obtain ⟨d, hd, hdm⟩ := drop_head_mem_takeWhile isPyWs tail j hlt
        rw [hd] at hc
        injection hc with hc
        subst hc
        have := (List.all_eq_true.mp htail) d hdm
        simpa using this
      · have hje : j = (tail.takeWhile isPyWs).length := by
          simp only [List.length_cons] at hle
          omega
        have hde : (tail.drop j).head? = (tail.dropWhile isPyWs).head? := by
          rw [dropWhile_eq_drop, hje]
        rw [hde] at hc
        have := head_dropWhile_not isPyWs tail c hc
        intro hcc
        rw [hcc] at this
        simp [isPyWs] at this
    rw [tryStar_shrink (by simp) hfail]
    show tryStar (fun j => matchCore [RItem.litNL] (('\n' :: '\n' :: tail).drop j)) 1 =
      some (tail, [])
    apply tryStar_of_top
    show matchCore [RItem.litNL] ('\n' :: tail) = some (tail, [])
    rw [matchCore_litNL_cons, if_pos (by decide)]
    rfl
  -- second `=+` line and final newline pair
  have h7 : matchCore [RItem.eqPlus, RItem.wsStar, RItem.litNL]
      (eqRun ++ '\n' :: '\n' :: tail) = some (tail, []) := by
    apply matchCore_eqPlus_eqRun
    · intro c hc; simp only [List.head?_cons, Option.some.injEq] at hc; subst hc; decide
    · exact h8
  -- newline after the version, then the second `=+` line
  have h6 : matchCore [RItem.wsStar, RItem.litNL, RItem.wsStar, RItem.eqPlus,
      RItem.wsStar, RItem.litNL] ('\n' :: (eqRun ++ '\n' :: '\n' :: tail)) =
      some (tail, []) := by
    have hEh : ∀ c, (eqRun ++ '\n' :: '\n' :: tail).head? = some c → isPyWs c = false := by
      intro c hc
      rw [show eqRun = '=' :: List.replicate 49 '=' from rfl] at hc
      simp only [List.cons_append, List.head?_cons, Option.some.injEq] at hc
      subst hc
      decide
    have hrem : (eqRun ++ '\n' :: '\n' :: tail).takeWhile isPyWs = [] :=
      takeWhile_eq_nil_of_head _ _ hEh
    have h7b : matchCore [RItem.wsStar, RItem.eqPlus, RItem.wsStar, RItem.litNL]
        (eqRun ++ '\n' :: '\n' :: tail) = some (tail, []) := by
      have := matchCore_wsStar_skiprun [RItem.eqPlus, RItem.wsStar, RItem.litNL] []
        (eqRun ++ '\n' :: '\n' :: tail) rfl hrem h7
      simpa using this
    have := matchCore_wsStar_litNL_skip [RItem.wsStar, RItem.eqPlus, RItem.wsStar,
      RItem.litNL] [] (eqRun ++ '\n' :: '\n' :: tail) rfl rfl hrem h7b
    simpa using this
  -- the captured version
  have hvhead : ∀ c, ('\n' :: (eqRun ++ '\n' :: '\n' :: tail)).head? = some c →
      isVerC c = false := by
    intro c hc
    simp only [List.head?_cons, Option.some.injEq] at hc
    subst hc
    decide
  have h5 : matchCore [RItem.verGroup, RItem.wsStar, RItem.litNL, RItem.wsStar,
      RItem.eqPlus, RItem.wsStar, RItem.litNL]
      (v ++ '\n' :: (eqRun ++ '\n' :: '\n' :: tail)) = some (tail, v) := by
    have := matchCore_verGroup_take [RItem.wsStar, RItem.litNL, RItem.wsStar,
      RItem.eqPlus, RItem.wsStar, RItem.litNL] v
      ('\n' :: (eqRun ++ '\n' :: '\n' :: tail)) hv1 hv2 hvhead h6
    simpa using this
  -- `RELEASE:` with the space before the version
  have hv_ne_ws : (v ++ '\n' :: (eqRun ++ '\n' :: '\n' :: tail)).takeWhile isPyWs = [] := by
    apply takeWhile_eq_nil_of_head
    intro c hc
    cases hv : v with
    | nil => exact absurd hv hv1
    | cons a t =>
      rw [hv] at hc
      simp only [List.cons_append, List.head?_cons, Option.some.injEq] at hc
      subst hc
      apply verC_not_ws
      exact (List.all_eq_true.mp hv2) a (by rw [hv]; exact List.mem_cons_self _ _)
  have h4 : matchCore [RItem.lit 'R', RItem.lit 'E', RItem.lit 'L', RItem.lit 'E',
      RItem.lit 'A', RItem.lit 'S', RItem.lit 'E', RItem.lit ':', RItem.wsStar,
      RItem.verGroup, RItem.wsStar, RItem.litNL, RItem.wsStar, RItem.eqPlus,
      RItem.wsStar, RItem.litNL]
      ('R' :: 'E' :: 'L' :: 'E' :: 'A' :: 'S' :: 'E' :: ':' :: ' ' ::
        (v ++ '\n' :: (eqRun ++ '\n' :: '\n' :: tail))) = some (tail, v) := by
    rw [matchCore_lit_cons, if_pos (by decide), matchCore_lit_cons, if_pos (by decide),
      matchCore_lit_cons, if_pos (by decide), matchCore_lit_cons, if_pos (by decide),
      matchCore_lit_cons, if_pos (by decide), matchCore_lit_cons, if_pos (by decide),
      matchCore_lit_cons, if_pos (by decide), matchCore_lit_cons, if_pos (by decide)]
    have := matchCore_wsStar_skiprun [RItem.verGroup, RItem.wsStar, RItem.litNL,
      RItem.wsStar, RItem.eqPlus, RItem.wsStar, RItem.litNL] [' ']
      (v ++ '\n' :: (eqRun ++ '\n' :: '\n' :: tail)) (by decide) hv_ne_ws h5
    simpa using this
  -- first `=+` line, the newline after it, and the ` RELEASE: ` line
  have h3 : matchCore [RItem.wsStar, RItem.litNL, RItem.wsStar, RItem.lit 'R',
      RItem.lit 'E', RItem.lit 'L', RItem.lit 'E', RItem.lit 'A', RItem.lit 'S',
      RItem.lit 'E', RItem.lit ':', RItem.wsStar, RItem.verGroup, RItem.wsStar,
      RItem.litNL, RItem.wsStar, RItem.eqPlus, RItem.wsStar, RItem.litNL]
      ('\n' :: (' ' :: ('R' :: 'E' :: 'L' :: 'E' :: 'A' :: 'S' :: 'E' :: ':' :: ' ' ::
        (v ++ '\n' :: (eqRun ++ '\n' :: '\n' :: tail))))) = some (tail, v) := by
    have hrrem : ('R' :: 'E' :: 'L' :: 'E' :: 'A' :: 'S' :: 'E' :: ':' :: ' ' ::
        (v ++ '\n' :: (eqRun ++ '\n' :: '\n' :: tail))).takeWhile isPyWs = [] := by
      apply takeWhile_eq_nil_of_head
      intro c hc
      simp only [List.head?_cons, Option.some.injEq] at hc
      subst hc
      decide
    have := matchCore_wsStar_litNL_skip [RItem.wsStar, RItem.lit 'R', RItem.lit 'E',
      RItem.lit 'L', RItem.lit 'E', RItem.lit 'A', RItem.lit 'S', RItem.lit 'E',
      RItem.lit ':', RItem.wsStar, RItem.verGroup, RItem.wsStar, RItem.litNL,
      RItem.wsStar, RItem.eqPlus, RItem.wsStar, RItem.litNL] [' ']
      ('R' :: 'E' :: 'L' :: 'E' :: 'A' :: 'S' :: 'E' :: ':' :: ' ' ::
        (v ++ '\n' :: (eqRun ++ '\n' :: '\n' :: tail))) (by decide) (by decide) hrrem
      (matchCore_wsStar_skiprun _ [' '] _ (by decide) hrrem h4)
    simpa using this
  have h2 : matchCore [RItem.eqPlus, RItem.wsStar, RItem.litNL, RItem.wsStar,
      RItem.lit 'R', RItem.lit 'E', RItem.lit 'L', RItem.lit 'E', RItem.lit 'A',
      RItem.lit 'S', RItem.lit 'E', RItem.lit ':', RItem.wsStar, RItem.verGroup,
      RItem.wsStar, RItem.litNL, RItem.wsStar, RItem.eqPlus, RItem.wsStar, RItem.litNL]
      (eqRun ++ '\n' :: (' ' :: ('R' :: 'E' :: 'L' :: 'E' :: 'A' :: 'S' :: 'E' :: ':' ::
        ' ' :: (v ++ '\n' :: (eqRun ++ '\n' :: '\n' :: tail))))) = some (tail, v) := by
    apply matchCore_eqPlus_eqRun
    · intro c hc; simp only [List.head?_cons, Option.some.injEq] at hc; subst hc; decide
    · exact h3
  -- leading `^\s*`: absorb `W` and the block's first newline
  have hble : W ++ (delimBlock v ++ tail) = (W ++ ['\n']) ++
      (eqRun ++ '\n' :: (' ' :: ('R' :: 'E' :: 'L' :: 'E' :: 'A' :: 'S' :: 'E' :: ':' ::
        ' ' :: (v ++ '\n' :: (eqRun ++ '\n' :: '\n' :: tail))))) := by
    simp [delimBlock, List.append_assoc]
  rw [hble]
  have hEh2 : (eqRun ++ '\n' :: (' ' :: ('R' :: 'E' :: 'L' :: 'E' :: 'A' :: 'S' ::
      'E' :: ':' :: ' ' :: (v ++ '\n' :: (eqRun ++ '\n' :: '\n' :: tail))))).takeWhile
        isPyWs = [] := by
    apply takeWhile_eq_nil_of_head
    intro c hc
    rw [show eqRun = '=' :: List.replicate 49 '=' from rfl] at hc
    simp only [List.cons_append, List.head?_cons, Option.some.injEq] at hc
    subst hc
    decide
  exact matchCore_wsStar_skiprun _ (W ++ ['\n']) _
    (by simp only [List.all_append]; rw [hW]; decide) hEh2 h2

/-! ## `.rst`-stem computation for filter-accepted filenames -/

lemma pyRemoveRst_cons_ne_dot (c : Char) (rest : List Char) (hc : c ≠ '.') :
    pyRemoveRst (c :: rest) = c :: pyRemoveRst rest := by
  rw [pyRemoveRst.eq_def]
  split
  · next heq => injection heq with h1 _; exact absurd h1 hc
  · next heq => injection heq with h1 h2; rw [← h1, ← h2]
  · next heq => exact absurd heq (List.cons_ne_nil _ _)

lemma pyRemoveRst_dot_cons_ne_r (d : Char) (rest : List Char) (hd : d ≠ 'r') :
    pyRemoveRst ('.' :: d :: rest) = '.' :: pyRemoveRst (d :: rest) := by
  rw [pyRemoveRst.eq_def]
  split
  · next heq => injection heq with _ h2; injection h2 with h2 _; exact absurd h2 hd
  · next heq => injection heq with h1 h2; rw [← h1, ← h2]
  · next heq => exact absurd heq (List.cons_ne_nil _ _)

lemma digit_ne_dot {c : Char} (h : isDigitC c = true) : c ≠ '.' := by
  intro hc; rw [hc] at h; exact absurd h (by decide)

lemma digit_ne_r {c : Char} (h : isDigitC c = true) : c ≠ 'r' := by
  intro hc; rw [hc] at h; exact absurd h (by decide)

lemma digit_verC {c : Char} (h : isDigitC c = true) : isVerC c = true := by
  simp [isVerC, h]

lemma all_digit_verC {l : List Char} (h : l.all isDigitC = true) :
    l.all isVerC = true :=
  List.all_eq_true.mpr fun c hc => digit_verC ((List.all_eq_true.mp h) c hc)

lemma pyRemoveRst_digits (l t : List Char) (hl : l.all isDigitC = true) :
    pyRemoveRst (l ++ t) = l ++ pyRemoveRst t := by
  induction l with
  | nil => rfl
  | cons c l' ih =>
    simp only [List.all_cons, Bool.and_eq_true] at hl
    rw [List.cons_append, pyRemoveRst_cons_ne_dot c _ (digit_ne_dot hl.1), ih hl.2,
      List.cons_append]

lemma pyRemoveRst_dot_digits (b t : List Char) (hb : b.all isDigitC = true)
    (hne : b ≠ []) :
    pyRemoveRst ('.' :: (b ++ t)) = '.' :: (b ++ pyRemoveRst t) := by
  cases b with
  | nil => exact absurd rfl hne
  | cons d b2 =>
    simp only [List.all_cons, Bool.and_eq_true] at hb
    rw [List.cons_append, pyRemoveRst_dot_cons_ne_r d _ (digit_ne_r hb.1),
      ← List.cons_append, pyRemoveRst_digits (d :: b2) t (by simp [hb.1, hb.2])]

/-! ## Reconstructing a filename from its dot-split segments -/

def joinDot : List (List Char) → List Char
  | [] => []
  | [x] => x
  | x :: xs => x ++ '.' :: joinDot xs

lemma joinDot_cons2 (x y : List Char) (t : List (List Char)) :
    joinDot (x :: y :: t) = x ++ '.' :: joinDot (y :: t) := rfl

lemma splitOnChar_ne_nil (sep : Char) (s : List Char) : splitOnChar sep s ≠ [] := by
  cases s with
  | nil => simp [splitOnChar]
  | cons c rest =>
    cases h : splitOnChar sep rest with
    | nil =>
      have hs : splitOnChar sep (c :: rest) = if c == sep then [[], []] else [[c]] := by
        rw [splitOnChar, h]
      rw [hs]
      split <;> simp
    | cons a t =>
      have hs : splitOnChar sep (c :: rest) =
          if c == sep then [] :: a :: t else (c :: a) :: t := by
        rw [splitOnChar, h]
      rw [hs]
      split <;> simp

lemma joinDot_splitOnChar (s : List Char) : joinDot (splitOnChar '.' s) = s := by
  induction s with
  | nil => rfl
  | cons c rest ih =>
    cases h : splitOnChar '.' rest with
    | nil => exact absurd h (splitOnChar_ne_nil '.' rest)
    | cons a t =>
      have hs : splitOnChar '.' (c :: rest) =
          if c == '.' then [] :: a :: t else (c :: a) :: t := by
        rw [splitOnChar, h]
      rw [h] at ih
      rw [hs]
      split
      · next hcond =>
        have hc : c = '.' := by simpa using hcond
        rw [joinDot_cons2, ih, hc]
        rfl
      · next hcond =>
        cases t with
        | nil =>
          have ha : a = rest := ih
          show c :: a = c :: rest
          rw [ha]
        | cons b t' =>
          rw [joinDot_cons2] at ih ⊢
          rw [List.cons_append, ih]

/-- A filename accepted by the `^\d+\.\d+(\.\d+)?\.rst$` filter has a
nonempty `.rst`-stripped stem made of digits and dots. -/
lemma stem_of_nameOk (f : String) (h : nameOk f = true) :
    pyRemoveRst f.data ≠ [] ∧ (pyRemoveRst f.data).all isVerC = true := by
  have hj := joinDot_splitOnChar f.data
  unfold nameOk at h
  split at h
  · next a b r heq =>
    rw [heq] at hj
    simp only [Bool.and_eq_true, beq_iff_eq] at h
    obtain ⟨⟨⟨⟨ha, hb⟩, hda⟩, hdb⟩, hr⟩ := h
    subst hr
    rw [joinDot_cons2, joinDot_cons2] at hj
    have hbne : b ≠ [] := by
      intro hbnil; rw [hbnil] at hb; simp at hb
    have hcalc : pyRemoveRst f.data = a ++ '.' :: b := by
      rw [← hj, pyRemoveRst_digits a _ hda]
      congr 1
      rw [pyRemoveRst_dot_digits b _ hdb hbne]
      have h0 : pyRemoveRst ('.' :: joinDot [['r', 's', 't']]) = [] := rfl
      rw [h0, List.append_nil]
    constructor
    · rw [hcalc]; simp
    · rw [hcalc]
      simp only [List.all_append, List.all_cons, Bool.and_eq_true]
      exact ⟨all_digit_verC hda, by decide, all_digit_verC hdb⟩
  · next a b c r heq =>
    rw [heq] at hj
    simp only [Bool.and_eq_true, beq_iff_eq] at h
    obtain ⟨⟨⟨⟨⟨⟨ha, hb⟩, hc⟩, hda⟩, hdb⟩, hdc⟩, hr⟩ := h
    subst hr
    rw [joinDot_cons2, joinDot_cons2, joinDot_cons2] at hj
    have hbne : b ≠ [] := by
      intro hbnil; rw [hbnil] at hb; simp at hb
    have hcne : c ≠ [] := by
      intro hcnil; rw [hcnil] at hc; simp at hc
    have hcalc : pyRemoveRst f.data = a ++ '.' :: (b ++ '.' :: c) := by
      rw [← hj, pyRemoveRst_digits a _ hda]
      congr 1
      rw [pyRemoveRst_dot_digits b _ hdb hbne]
      congr 2
      rw [pyRemoveRst_dot_digits c _ hdc hcne]
      have h0 : pyRemoveRst ('.' :: joinDot [['r', 's', 't']]) = [] := rfl
      rw [h0, List.append_nil]
    constructor
    · rw [hcalc]; simp
    · rw [hcalc]
      simp only [List.all_append, List.all_cons, Bool.and_eq_true]
      exact ⟨all_digit_verC hda, by decide, all_digit_verC hdb, by decide,
        all_digit_verC hdc⟩
  · simp at h

/-- Stripping surrounding whitespace from a string of digits and dots is the
identity. -/
lemma pyStripChars_of_verC (l : List Char) (h : l.all isVerC = true) :
    pyStripChars l = l := by
  have hnw : ∀ c ∈ l, isPyWs c = false := fun c hc =>
    verC_not_ws ((List.all_eq_true.mp h) c hc)
  unfold pyStripChars
  rw [dropWhile_eq_self_of_head _ _ (fun c hc => hnw c (head_mem_of_head? hc)),
    dropWhile_eq_self_of_head _ _ (fun c hc =>
      hnw c (List.mem_reverse.mp (head_mem_of_head? hc))),
    List.reverse_reverse]

/-! ## Benign release bodies

A body the splitter hands back unchanged: no `=` (so no spoofed delimiter),
its leading whitespace run holds no newline (so the greedy trailing `\s*\n`
of the previous delimiter cannot eat into it), it ends with a newline (so
the next delimiter is matched at a line start), and the whitespace run just
before that final newline holds no further newline (so the final newline is
not absorbed into the next match's leading `\s*`). -/
def benignBody (c : List Char) : Bool :=
  c.all (fun x => !(x == '=')) &&
  (c.takeWhile isPyWs).all (fun x => !(x == '\n')) &&
  (c.reverse.head? == some '\n') &&
  ((c.reverse.drop 1).takeWhile isPyWs).all (fun x => !(x == '\n'))

lemma benign_parts {c : List Char} (h : benignBody c = true) :
    c.all (fun x => !(x == '=')) = true ∧
    (c.takeWhile isPyWs).all (fun x => !(x == '\n')) = true ∧
    c.reverse.head? = some '\n' ∧
    ((c.reverse.drop 1).takeWhile isPyWs).all (fun x => !(x == '\n')) = true := by
  simp only [benignBody, Bool.and_eq_true, beq_iff_eq] at h
  exact ⟨h.1.1.1, h.1.1.2, h.1.2, h.2⟩

lemma benign_no_eq {c : List Char} (h : benignBody c = true) : ∀ x ∈ c, x ≠ '=' := by
  intro x hx
  have := (List.all_eq_true.mp (benign_parts h).1) x hx
  simpa using this

lemma benign_last {c : List Char} (h : benignBody c = true) :
    lastFlag true c = true := by
  have hg : c.getLast? = some '\n' := by
    rw [List.getLast?_eq_head?_reverse]; exact (benign_parts h).2.2.1
  simp [lastFlag, hg]

lemma benign_not_allws {c : List Char} (h : benignBody c = true) :
    c.all isPyWs = false := by
  cases hall : c.all isPyWs with
  | false => rfl
  | true =>
    exfalso
    have hmem : '\n' ∈ c :=
      List.mem_reverse.mp (head_mem_of_head? (benign_parts h).2.2.1)
    have htw : c.takeWhile isPyWs = c := takeWhile_eq_self_of_all _ _ hall
    have := (List.all_eq_true.mp (benign_parts h).2.1) '\n' (by rw [htw]; exact hmem)
    simp at this

lemma benign_allws_imp {c : List Char} (h : benignBody c = true) :
    c.all isPyWs = true → c = [] := by
  intro hall
  rw [benign_not_allws h] at hall
  exact absurd hall (by simp)

lemma benign_decomp {c : List Char} (h : benignBody c = true) :
    ∀ a b, c = a ++ '\n' :: b → b.all isPyWs = true → b = [] := by
  intro a b hab hb
  by_contra hbne
  have hrc : c.reverse = b.reverse ++ '\n' :: a.reverse := by
    rw [hab, List.reverse_append, List.reverse_cons]
    simp [List.append_assoc]
  cases hrb : b.reverse with
  | nil => exact hbne (List.reverse_eq_nil_iff.mp hrb)
  | cons y yb =>
    rw [hrb, List.cons_append] at hrc
    have hdrop : c.reverse.drop 1 = yb ++ '\n' :: a.reverse := by rw [hrc]; rfl
    have h4 := (benign_parts h).2.2.2
    rw [hdrop] at h4
    have hyb : yb.all isPyWs = true := by
      have hall : (y :: yb).all isPyWs = true := by
        rw [← hrb, List.all_reverse]; exact hb
      simp only [List.all_cons, Bool.and_eq_true] at hall
      exact hall.2
    rw [takeWhile_append_of_all _ _ _ hyb, List.takeWhile_cons_of_pos (by decide)] at h4
    have hmem : '\n' ∈ yb ++ '\n' :: (a.reverse.takeWhile isPyWs) := by simp
    have := (List.all_eq_true.mp h4) '\n' hmem
    simp at this

/-! ## Splitting a compiled document -/

def blockcat : List (List Char × List Char) → List Char
  | [] => []
  | q :: t => delimBlock q.1 ++ q.2 ++ blockcat t

def flattenPairs : List (List Char × List Char) → List (List Char)
  | [] => []
  | q :: t => q.1 :: q.2 :: flattenPairs t

lemma pairUp_flattenPairs : ∀ P, pairUp (flattenPairs P) = P := by
  intro P
  induction P with
  | nil => rfl
  | cons q t ih =>
    show (q.1, q.2) :: pairUp (flattenPairs t) = q :: t
    rw [ih]

lemma blocksList_eq_blockcat (L : List (String × String)) :
    blocksList L = blockcat (L.map fun p => (pyRemoveRst p.1.data, p.2.data)) := by
  induction L with
  | nil => rfl
  | cons p t ih =>
    show delimBlock (pyRemoveRst p.1.data) ++ p.2.data ++ blocksList t =
      delimBlock (pyRemoveRst p.1.data) ++ p.2.data ++
        blockcat (t.map fun q => (pyRemoveRst q.1.data, q.2.data))
    rw [ih]

lemma findFirstDelim_of_matchCore {s tail g : List Char}
    (hm : matchCore releaseItems s = some (tail, g)) :
    findFirstDelim true s = some ([], g, tail) := by
  cases s with
  | nil =>
    have h0 : matchCore releaseItems ([] : List Char) = none := rfl
    rw [h0] at hm
    exact absurd hm (by simp)
  | cons c s2 =>
    rw [findFirstDelim]
    have hcond : (if (true : Bool) then matchCore releaseItems (c :: s2) else none) =
        some (tail, g) := hm
    rw [hcond]

lemma findFirstDelim_at_block (W v tail : List Char)
    (hW : W.all isPyWs = true) (hv1 : v ≠ []) (hv2 : v.all isVerC = true)
    (htail : (tail.takeWhile isPyWs).all (fun x => !(x == '\n')) = true) :
    findFirstDelim true (W ++ (delimBlock v ++ tail)) = some ([], v, tail) :=
  findFirstDelim_of_matchCore (matchCore_delim W v tail hW hv1 hv2 htail)

/-- Splitting a string made of a benign prefix followed by compiled release
blocks with benign bodies: the parts are the prefix, then alternately each
version and its body, verbatim. -/
lemma pySplit_spine :
    ∀ (P : List (List Char × List Char)),
      (∀ q ∈ P, q.1 ≠ [] ∧ q.1.all isVerC = true ∧ benignBody q.2 = true) →
      ∀ (s' W : List Char),
        (∀ x ∈ s', x ≠ '=') →
        (s'.all isPyWs = true → s' = []) →
        (∀ a b, s' = a ++ '\n' :: b → b.all isPyWs = true → b = []) →
        lastFlag true s' = true →
        W.all isPyWs = true →
        (P = [] → W = []) →
        pySplitParts (s' ++ (W ++ blockcat P)) = s' :: flattenPairs P := by
  intro P
  induction P with
  | nil =>
    intro hP s' W h1 h2 h3 h4 hW hPW
    rw [hPW rfl]
    rw [pySplitParts_eq]
    have hf : findFirstDelim true (s' ++ ([] ++ blockcat [])) = none := by
      apply findFirstDelim_none
      intro c hc
      have hcs : c ∈ s' := by simpa [blockcat] using hc
      exact h1 c hcs
    simp only [hf]
    simp [blockcat, flattenPairs]
  | cons q P' ih =>
    intro hP s' W h1 h2 h3 h4 hW hPW
    obtain ⟨hq1, hq2, hq3⟩ := hP q (List.mem_cons_self _ _)
    have hassoc : s' ++ (W ++ blockcat (q :: P')) =
        s' ++ (W ++ (delimBlock q.1 ++ (q.2 ++ blockcat P'))) := by
      show s' ++ (W ++ (delimBlock q.1 ++ q.2 ++ blockcat P')) = _
      simp [List.append_assoc]
    rw [hassoc]
    have htail : ((q.2 ++ blockcat P').takeWhile isPyWs).all
        (fun x => !(x == '\n')) = true := by
      rw [takeWhile_append_of_not_all _ _ _ (benign_not_allws hq3)]
      exact (benign_parts hq3).2.1
    have hfd : findFirstDelim true (W ++ (delimBlock q.1 ++ (q.2 ++ blockcat P'))) =
        some ([], q.1, q.2 ++ blockcat P') :=
      findFirstDelim_at_block W q.1 (q.2 ++ blockcat P') hW hq1 hq2 htail
    have hscan := scanThrough s' true (W ++ (delimBlock q.1 ++ (q.2 ++ blockcat P')))
      h1 (fun _ => h2) h3
    rw [h4, hfd] at hscan
    simp only [Option.map_some'] at hscan
    rw [pySplitParts_eq]
    simp only [hscan]
    have hrec : pySplitParts (q.2 ++ ([] ++ blockcat P')) = q.2 :: flattenPairs P' := by
      apply ih (fun r hr => hP r (List.mem_cons_of_mem q hr)) q.2 []
      · exact benign_no_eq hq3
      · exact benign_allws_imp hq3
      · exact benign_decomp hq3
      · exact benign_last hq3
      · rfl
      · intro hP0; rfl
    rw [List.nil_append] at hrec
    rw [hrec]
    show (s' ++ []) :: q.1 :: q.2 :: flattenPairs P' =
      s' :: q.1 :: q.2 :: flattenPairs P'
    rw [List.append_nil]

/-! ## The mapping built from distinct fresh keys -/

lemma insertDesc_perm (x : String × String) (l : List (String × String)) :
    (insertDesc x l).Perm (x :: l) := by
  induction l with
  | nil => exact List.Perm.refl _
  | cons y ys ih =>
    rw [insertDesc]
    split
    · exact (ih.cons y).trans (List.Perm.swap x y ys)
    · exact List.Perm.refl _

lemma sortDesc_perm (l : List (String × String)) : (sortDesc l).Perm l := by
  induction l with
  | nil => exact List.Perm.refl _
  | cons x xs ih => exact (insertDesc_perm x (sortDesc xs)).trans (ih.cons x)

lemma upsert_fresh (d : List (String × String)) (k v : String)
    (hk : ∀ p ∈ d, p.1 ≠ k) : upsert d k v = d ++ [(k, v)] := by
  unfold upsert
  rw [if_neg]
  intro hany
  simp only [List.any_eq_true] at hany
  obtain ⟨p, hp, hbeq⟩ := hany
  exact hk p hp (by simpa using hbeq)

lemma foldl_upsert_append :
    ∀ (L acc : List (String × String)),
      (∀ p ∈ L, ∀ q ∈ acc, q.1 ≠ p.1) →
      (L.map Prod.fst).Nodup →
      L.foldl (fun d p => upsert d p.1 p.2) acc = acc ++ L := by
  intro L
  induction L with
  | nil => intro acc h hn; simp
  | cons p t ih =>
    intro acc h hn
    simp only [List.map_cons, List.nodup_cons] at hn
    have hup : upsert acc p.1 p.2 = acc ++ [p] :=
      upsert_fresh acc p.1 p.2 (fun q hq => h p (List.mem_cons_self _ _) q hq)
    have hfresh : ∀ r ∈ t, ∀ q ∈ acc ++ [p], q.1 ≠ r.1 := by
      intro r hr q hq
      rcases List.mem_append.mp hq with hqa | hqp
      · exact h r (List.mem_cons_of_mem p hr) q hqa
      · have hq' : q = p := by simpa using hqp
        subst hq'
        intro heq
        apply hn.1
        rw [heq]
        exact List.mem_map_of_mem Prod.fst hr
    show t.foldl (fun d p => upsert d p.1 p.2) (upsert acc p.1 p.2) = acc ++ p :: t
    rw [hup, ih (acc ++ [p]) hfresh hn.2]
    simp

lemma foldl_strip_eq :
    ∀ (P : List (List Char × List Char)) (acc : List (String × String)),
      (∀ q ∈ P, pyStripChars q.1 = q.1) →
      P.foldl (fun d p => upsert d (String.mk (pyStripChars p.1)) (String.mk p.2)) acc =
        (P.map fun q => (String.mk q.1, String.mk q.2)).foldl
          (fun d p => upsert d p.1 p.2) acc := by
  intro P
  induction P with
  | nil => intro acc h; rfl
  | cons q t ih =>
    intro acc h
    have hq := h q (List.mem_cons_self _ _)
    simp only [List.map_cons, List.foldl_cons, hq]
    exact ih _ (fun r hr => h r (List.mem_cons_of_mem q hr))

lemma lookup_of_mem_nodup :
    ∀ (Q : List (String × String)) (k v : String),
      (k, v) ∈ Q → (Q.map Prod.fst).Nodup → Q.lookup k = some v := by
  intro Q
  induction Q with
  | nil => intro k v hm _; simp at hm
  | cons q t ih =>
    intro k v hm hn
    simp only [List.map_cons, List.nodup_cons] at hn
    cases hbeq : (k == q.1) with
    | true =>
      have hk : k = q.1 := by simpa using hbeq
      have hl : List.lookup k (q :: t) = some q.2 := by
        show (match k == q.1 with
          | true => some q.2
          | false => List.lookup k t) = some q.2
        rw [hbeq]
      rw [hl]
      rcases List.mem_cons.mp hm with hq | ht
      · rw [← hq]
      · exfalso
        apply hn.1
        rw [← hk]
        exact List.mem_map_of_mem Prod.fst ht
    | false =>
      have hl : List.lookup k (q :: t) = List.lookup k t := by
        show (match k == q.1 with
          | true => some q.2
          | false => List.lookup k t) = List.lookup k t
        rw [hbeq]
      rw [hl]
      rcases List.mem_cons.mp hm with hq | ht
      · exfalso
        have hk1 : q.1 = k := by rw [← hq]
        have hkk : (k == q.1) = true := by simp [hk1]
        rw [hkk] at hbeq
        simp at hbeq
      · exact ih k v ht hn.2

set_option maxRecDepth 10000 in
/-- Claim C2 (amended): for any nonempty collection of at most 50 release
files whose names match `^\d+\.\d+(\.\d+)?\.rst$`, whose `.rst`-stripped
stems are pairwise distinct, and whose contents are benign (no `=`
character, ending in a newline, and with no blank line at either end),
compiling them with `generate_summaries_python` and parsing the result with
`load_summaries` yields a mapping whose key list is a permutation of the
stems and which maps each stem to exactly that file's original content. -/
theorem C2_roundtrip_amended (files : List (String × String))
    (hne : files ≠ [])
    (hlen : files.length ≤ 50)
    (hnames : ∀ p ∈ files, nameOk p.1 = true)
    (hnodup : (files.map fun p => String.mk (pyRemoveRst p.1.data)).Nodup)
    (hbodies : ∀ p ∈ files, benignBody p.2.data = true) :
    ((load_summaries (generate_summaries files)).map Prod.fst).Perm
      (files.map fun p => String.mk (pyRemoveRst p.1.data)) ∧
    ∀ p ∈ files, (load_summaries (generate_summaries files)).lookup
      (String.mk (pyRemoveRst p.1.data)) = some p.2 := by
  have hfilter : files.filter (fun p => nameOk p.1) = files :=
    List.filter_eq_self.mpr hnames
  have hperm : (sortDesc files).Perm files := sortDesc_perm files
  have htake : (sortDesc files).take 50 = sortDesc files := by
    apply List.take_of_length_le
    rw [hperm.length_eq]
    exact hlen
  have hLs : (sortDesc (files.filter fun p => nameOk p.1)).take 50 = sortDesc files := by
    rw [hfilter, htake]
  have hdoc : (generate_summaries files).data =
      "MESA RELEASE NOTES COMPILATION\n".data ++ (['\n'] ++
        blockcat ((sortDesc files).map fun p => (pyRemoveRst p.1.data, p.2.data))) := by
    show "MESA RELEASE NOTES COMPILATION\n\n".data ++
      blocksList ((sortDesc (files.filter fun p => nameOk p.1)).take 50) = _
    rw [hLs, blocksList_eq_blockcat]
    rw [show ("MESA RELEASE NOTES COMPILATION\n\n".data : List Char) =
      "MESA RELEASE NOTES COMPILATION\n".data ++ ['\n'] from by decide]
    rw [List.append_assoc]
  have hP : ∀ q ∈ (sortDesc files).map (fun p => (pyRemoveRst p.1.data, p.2.data)),
      q.1 ≠ [] ∧ q.1.all isVerC = true ∧ benignBody q.2 = true := by
    intro q hq
    obtain ⟨p, hp, rfl⟩ := List.mem_map.mp hq
    have hpf : p ∈ files := hperm.mem_iff.mp hp
    obtain ⟨h1, h2⟩ := stem_of_nameOk p.1 (hnames p hpf)
    exact ⟨h1, h2, hbodies p hpf⟩
  have hsplit : pySplitParts (generate_summaries files).data =
      "MESA RELEASE NOTES COMPILATION\n".data ::
        flattenPairs ((sortDesc files).map fun p => (pyRemoveRst p.1.data, p.2.data)) := by
    rw [hdoc]
    apply pySplit_spine _ hP
    · intro x hx
      have hall : ("MESA RELEASE NOTES COMPILATION\n".data).all
          (fun x => !(x == '=')) = true := by decide
      have := (List.all_eq_true.mp hall) x hx
      simpa using this
    · intro hallws
      exact absurd hallws (by decide)
    · exact benign_decomp (by decide)
    · exact benign_last (by decide)
    · decide
    · intro hP0
      exfalso
      have hs0 : sortDesc files = [] := List.map_eq_nil_iff.mp hP0
      have hlen0 := hperm.length_eq
      rw [hs0] at hlen0
      exact hne (List.length_eq_zero.mp hlen0.symm)
  have hls : load_summaries (generate_summaries files) =
      ((sortDesc files).map fun p => (pyRemoveRst p.1.data, p.2.data)).foldl
        (fun d p => upsert d (String.mk (pyStripChars p.1)) (String.mk p.2)) [] := by
    unfold load_summaries
    simp only [hsplit, pairUp_flattenPairs]
  have hstrip : ∀ q ∈ (sortDesc files).map (fun p => (pyRemoveRst p.1.data, p.2.data)),
      pyStripChars q.1 = q.1 := fun q hq => pyStripChars_of_verC q.1 ((hP q hq).2.1)
  have hkeys : ((((sortDesc files).map fun p => (pyRemoveRst p.1.data, p.2.data)).map
      fun q => (String.mk q.1, String.mk q.2)).map Prod.fst).Nodup := by
    rw [List.map_map, List.map_map]
    show ((sortDesc files).map fun p => String.mk (pyRemoveRst p.1.data)).Nodup
    exact (hperm.map _).nodup_iff.mpr hnodup
  have hQ : load_summaries (generate_summaries files) =
      (sortDesc files).map (fun p => (String.mk (pyRemoveRst p.1.data), p.2)) := by
    rw [hls, foldl_strip_eq _ [] hstrip, foldl_upsert_append _ [] (by simp) hkeys]
    rw [List.nil_append, List.map_map]
    rfl
  constructor
  · rw [hQ, List.map_map]
    show ((sortDesc files).map fun p => String.mk (pyRemoveRst p.1.data)).Perm
      (files.map fun p => String.mk (pyRemoveRst p.1.data))
    exact hperm.map _
  · intro p hp
    rw [hQ]
    apply lookup_of_mem_nodup
    · have hpl : p ∈ sortDesc files := hperm.mem_iff.mpr hp
      exact List.mem_map.mpr ⟨p, hpl, rfl⟩
    · rw [List.map_map]
      show ((sortDesc files).map fun p => String.mk (pyRemoveRst p.1.data)).Nodup
      exact (hperm.map _).nodup_iff.mpr hnodup

set_option maxRecDepth 40000 in
/-- Witness for C2_roundtrip_amended: a concrete two-file listing satisfying
every hypothesis, with the round trip concluded by the theorem. -/
theorem C2_roundtrip_witness :
    ([("2.0.rst", "hello\n"), ("1.0.rst", "world\n")] : List (String × String)) ≠ [] ∧
    ([("2.0.rst", "hello\n"), ("1.0.rst", "world\n")] :
      List (String × String)).length ≤ 50 ∧
    (∀ p ∈ ([("2.0.rst", "hello\n"), ("1.0.rst", "world\n")] :
      List (String × String)), nameOk p.1 = true) ∧
    (([("2.0.rst", "hello\n"), ("1.0.rst", "world\n")] :
      List (String × String)).map (fun p => String.mk (pyRemoveRst p.1.data))).Nodup ∧
    (∀ p ∈ ([("2.0.rst", "hello\n"), ("1.0.rst", "world\n")] :
      List (String × String)), benignBody p.2.data = true) ∧
    (((load_summaries (generate_summaries
        [("2.0.rst", "hello\n"), ("1.0.rst", "world\n")])).map Prod.fst).Perm
      (([("2.0.rst", "hello\n"), ("1.0.rst", "world\n")] :
        List (String × String)).map fun p => String.mk (pyRemoveRst p.1.data)) ∧
     ∀ p ∈ ([("2.0.rst", "hello\n"), ("1.0.rst", "world\n")] :
        List (String × String)),
      (load_summaries (generate_summaries
        [("2.0.rst", "hello\n"), ("1.0.rst", "world\n")])).lookup
          (String.mk (pyRemoveRst p.1.data)) = some p.2) :=
  ⟨by decide, by decide, by decide, by decide, by decide,
    C2_roundtrip_amended _ (by decide) (by decide) (by decide) (by decide) (by decide)⟩
